import Mathlib

/-!
# Code snippet highlighting

A shallow embedding of `CodeSnippetHighlighter::highlightLine`
(clang/lib/Frontend/CodeSnippetHighlighter.cpp) and of the `StyleRange` record
(clang/include/clang/Frontend/CodeSnippetHighlighter.h).

Conventions of the embedding:

* `unsigned` values are natural numbers; every place where the source combines two
  independent `unsigned` values (`Start + Length`, `StartLine + L`, `... - 1`) is reduced
  modulo `2^32` through `u32`.  The two counters of the splitting loop (`L`, `LineLength`)
  only count characters of `Spelling` and are left unreduced, and `EndLine - StartLine`
  is computed where `StartLine <= LineNumber <= EndLine` is known.
* pointers (`LineStart`, `Save`, the buffer bounds) are addresses, the null pointer is `0`.
* the collaborators that are not part of the translation unit (raw lexer, source manager,
  identifier table, save points of the preprocessor) are inputs: each token carries the
  answers the source manager gives for it, the lexer is the stream of tokens it delivers
  from a byte offset.
* the `assert`s of the source do not compute anything; the three that guard the seek are
  kept as the predicate `seekAssertions`.
* a `char` of the source is a `Char` here: the characters of `Spelling` stand for its bytes.
-/

namespace clang

/-- The colours of `llvm::raw_ostream::Colors` used by the highlighter. -/
inductive Colors where
  | MAGENTA
  | RED
  | BLUE
deriving DecidableEq, Repr

/-- The constant `CommentColor` of the source. -/
def CommentColor : Colors := Colors.MAGENTA

/-- The constant `LiteralColor` of the source. -/
def LiteralColor : Colors := Colors.RED

/-- The constant `KeywordColor` of the source. -/
def KeywordColor : Colors := Colors.BLUE

/-- The record `StyleRange` of CodeSnippetHighlighter.h. -/
structure StyleRange where
  Start : Nat
  End : Nat
  Color : Colors
deriving DecidableEq, Repr

/-- Reduction of a natural number to the range of `unsigned`. -/
def u32 (n : Nat) : Nat := n % 2 ^ 32

namespace tok

/-- Modelled from the spec: clang/Basic/TokenKinds.def is not among the sources.  The kinds
the highlighter tells apart are listed by name (raw identifier, comment, the literal kinds,
`unknown`); `punctuator` stands for every kind that is none of these. -/
inductive TokenKind where
  | unknown
  | eof
  | comment
  | raw_identifier
  | numeric_constant
  | char_constant
  | wide_char_constant
  | utf8_char_constant
  | utf16_char_constant
  | utf32_char_constant
  | string_literal
  | wide_string_literal
  | header_name
  | utf8_string_literal
  | utf16_string_literal
  | utf32_string_literal
  | punctuator
deriving DecidableEq, Repr

/-- Modelled from the spec: `tok::isLiteral` (clang/Basic/TokenKinds.h) is not among the
sources; a literal kind is a numeric, character or string literal kind (or a header name). -/
def isLiteral (K : TokenKind) : Bool :=
  match K with
  | .numeric_constant => true
  | .char_constant => true
  | .wide_char_constant => true
  | .utf8_char_constant => true
  | .utf16_char_constant => true
  | .utf32_char_constant => true
  | .string_literal => true
  | .wide_string_literal => true
  | .header_name => true
  | .utf8_string_literal => true
  | .utf16_string_literal => true
  | .utf32_string_literal => true
  | _ => false

end tok

/-- Modelled from the spec: `isVerticalWhitespace` (clang/Basic/CharInfo.h) is not among the
sources; the line-break characters are the line feed and the carriage return. -/
def isVerticalWhitespace (c : Char) : Bool :=
  c == '\n' || c == '\r'

/-- The answer of one source-manager query `SM.getSpelling...Number(Loc, &Invalid)`: the
`unsigned` it returns (1-based) and the flag it stores in `Invalid`. -/
structure Lookup where
  Number : Nat
  Invalid : Bool
deriving DecidableEq, Repr

/-- The expression `SM.getSpelling...Number(Loc, &Invalid) - 1` in `unsigned` arithmetic. -/
def Lookup.minusOne (r : Lookup) : Nat := u32 (r.Number + 2 ^ 32 - 1)

/-- A raw token as the highlighter sees it: what `Token` itself answers (`getKind`,
`getRawIdentifier`, `getLength`) together with what the source manager and
`Lexer::getSpelling` answer for it. -/
structure Token where
  /-- The value of `T.getKind()`. -/
  Kind : tok.TokenKind
  /-- The value of `T.getRawIdentifier()` (read for raw identifiers only). -/
  RawIdentifier : String
  /-- The value of `T.getLength()`. -/
  Length : Nat
  /-- The query `SM.getSpellingLineNumber(T.getEndLoc(), &Invalid)`. -/
  EndLineNumber : Lookup
  /-- The query `SM.getSpellingLineNumber(T.getLocation(), &Invalid)`. -/
  StartLineNumber : Lookup
  /-- The query `SM.getSpellingColumnNumber(T.getLocation(), &Invalid)`. -/
  StartColumnNumber : Lookup
  /-- The query `SM.getSpellingColumnNumber(T.getEndLoc(), &Invalid)`. -/
  EndColumnNumber : Lookup
  /-- The string `Lexer::getSpelling(T, SM, LangOpts)`. -/
  Spelling : String
deriving DecidableEq, Repr

/-- The local `EndLine` of the loop body. -/
def Token.EndLine (T : Token) : Nat := T.EndLineNumber.minusOne

/-- The local `StartLine` of the loop body. -/
def Token.StartLine (T : Token) : Nat := T.StartLineNumber.minusOne

/-- The local `StartCol` of the loop body. -/
def Token.StartCol (T : Token) : Nat := T.StartColumnNumber.minusOne

/-- The local `EndCol` of the loop body. -/
def Token.EndCol (T : Token) : Nat := T.EndColumnNumber.minusOne

/-- What `highlightLine` reads of a `Preprocessor`, for a language configuration of
type `LO`. -/
structure Preprocessor (LO : Type) where
  /-- Whether `PP->getIdentifierTable().getExternalIdentifierLookup()` is not null. -/
  hasExternalIdentifierLookup : Bool
  /-- The value of `PP->getIdentifierInfo(RawIdent)->isKeyword(LangOpts)`. -/
  isKeyword : String → LO → Bool
  /-- The pointer `PP->getSaveFor(LineStart)`, an address (`0` is the null pointer). -/
  getSaveFor : Nat → Nat

/-- The bounds of the buffer `SM.getBufferOrNone(FID)`, as addresses. -/
structure MemoryBuffer where
  BufferStart : Nat
  BufferEnd : Nat
deriving DecidableEq, Repr

/-- The raw lexer over the buffer in keep-whitespace mode: `tokensFrom Offset` is the
sequence of tokens that successive `LexFromRawLexer` calls deliver after `seek(Offset)`
(or from the start of the buffer for `0`), the last one being the token at which the
lexer reports the end of the buffer. -/
structure Lexer where
  tokensFrom : Nat → List Token

/-- The lambda `appendStyle`: classify the token and append its range to the vector. -/
def appendStyle {LO : Type} (PP : Preprocessor LO) (LangOpts : LO) (Vec : List StyleRange)
    (T : Token) (Start Length : Nat) : List StyleRange :=
  if T.Kind = tok.TokenKind.raw_identifier then
    let RawIdent := T.RawIdentifier
    if RawIdent = "true" ∨ RawIdent = "false" ∨ RawIdent = "nullptr" then
      Vec ++ [⟨Start, u32 (Start + Length), LiteralColor⟩]
    else if PP.isKeyword RawIdent LangOpts then
      Vec ++ [⟨Start, u32 (Start + Length), KeywordColor⟩]
    else
      Vec
  else if tok.isLiteral T.Kind then
    Vec ++ [⟨Start, u32 (Start + Length), LiteralColor⟩]
  else
    Vec ++ [⟨Start, u32 (Start + Length), CommentColor⟩]

/-- The three-way choice made when the splitting loop has reached the target line
(`StartLine + L == LineNumber`): first line, last line, or a line in between. -/
def emitFragment {LO : Type} (PP : Preprocessor LO) (LangOpts : LO) (T : Token)
    (NumLines StartCol EndCol L LineLength : Nat) (LineRanges : List StyleRange) :
    List StyleRange :=
  if L = 0 then
    appendStyle PP LangOpts LineRanges T StartCol LineLength
  else if L = NumLines then
    appendStyle PP LangOpts LineRanges T 0 EndCol
  else
    appendStyle PP LangOpts LineRanges T 0 LineLength

/-- The loop `for (unsigned I = 0; I <= Spelling.size(); ++I)` over the characters of
`Spelling` not yet visited, with the current values of `L` and `LineLength`.  The empty
list is the iteration `I == Spelling.size()`, where `Spelling[I]` is the terminating
null character, which is not a line break. -/
def splitLoop {LO : Type} (PP : Preprocessor LO) (LangOpts : LO) (T : Token)
    (LineNumber StartLine NumLines StartCol EndCol : Nat) :
    List Char → Nat → Nat → List StyleRange → List StyleRange
  | [], L, LineLength, LineRanges =>
    if u32 (StartLine + L) = LineNumber then
      emitFragment PP LangOpts T NumLines StartCol EndCol L LineLength LineRanges
    else
      LineRanges
  | c :: rest, L, LineLength, LineRanges =>
    if isVerticalWhitespace c then
      if u32 (StartLine + L) = LineNumber then
        emitFragment PP LangOpts T NumLines StartCol EndCol L LineLength LineRanges
      else
        splitLoop PP LangOpts T LineNumber StartLine NumLines StartCol EndCol rest (L + 1) 0
          LineRanges
    else
      splitLoop PP LangOpts T LineNumber StartLine NumLines StartCol EndCol rest L
        (LineLength + 1) LineRanges

/-- One iteration of `while (!Stop)` for the token `T` just lexed: `none` is `break`,
`some V` is the vector with which the loop goes on (`continue` or the end of the body). -/
def loopBody {LO : Type} (LineNumber : Nat) (PP : Preprocessor LO) (LangOpts : LO)
    (LineRanges : List StyleRange) (T : Token) : Option (List StyleRange) :=
  if T.Kind = tok.TokenKind.unknown then some LineRanges
  else if T.Kind ≠ tok.TokenKind.raw_identifier ∧ T.Kind ≠ tok.TokenKind.comment ∧
      tok.isLiteral T.Kind = false then some LineRanges
  else if T.EndLineNumber.Invalid then some LineRanges
  else if T.EndLine < LineNumber then some LineRanges
  else if T.StartLineNumber.Invalid then some LineRanges
  else if T.StartLine > LineNumber then none
  else if T.StartColumnNumber.Invalid then some LineRanges
  else if T.StartLine = T.EndLine then
    some (appendStyle PP LangOpts LineRanges T T.StartCol T.Length)
  else if T.EndColumnNumber.Invalid then some LineRanges
  else
    -- `NumLines = EndLine - StartLine`; here `StartLine <= LineNumber <= EndLine`
    some (splitLoop PP LangOpts T LineNumber T.StartLine (T.EndLine - T.StartLine)
      T.StartCol T.EndCol T.Spelling.data 0 0 LineRanges)

/-- The loop `while (!Stop)` over the tokens the lexer still has to deliver. -/
def lexLoop {LO : Type} (LineNumber : Nat) (PP : Preprocessor LO) (LangOpts : LO) :
    List Token → List StyleRange → List StyleRange
  | [], LineRanges => LineRanges
  | T :: rest, LineRanges =>
    match loopBody LineNumber PP LangOpts LineRanges T with
    | none => LineRanges
    | some LineRanges' => lexLoop LineNumber PP LangOpts rest LineRanges'

/-- The offset at which lexing starts: `Save - BufferStart` when the save point passes the
test of the `if`, otherwise the lexer is not moved and starts at offset `0`. -/
def seekOffset (Buff : MemoryBuffer) (Save : Nat) : Nat :=
  if Buff.BufferStart ≤ Save ∧ Save < Buff.BufferEnd then Save - Buff.BufferStart else 0

/-- The three `assert`s inside the `if` that seeks to the save point. -/
def seekAssertions (Buff : MemoryBuffer) (LineStart Save : Nat) : Bool :=
  decide (Save ≥ Buff.BufferStart) && decide (Save ≤ Buff.BufferEnd) &&
    decide (Save ≤ LineStart)

/-- The function `CodeSnippetHighlighter::highlightLine`.  `PP` is `none` for the null
pointer; `Buff` and `L` stand for the buffer of `FID` in `SM` and the raw lexer built
on it. -/
def highlightLine {LO : Type} (LineNumber : Nat) (PP : Option (Preprocessor LO))
    (LangOpts : LO) (Buff : MemoryBuffer) (L : Lexer) (LineStart : Nat) : List StyleRange :=
  match PP with
  | none => []
  | some PP =>
    if PP.hasExternalIdentifierLookup then []
    else
      lexLoop LineNumber PP LangOpts
        (L.tokensFrom (seekOffset Buff (PP.getSaveFor LineStart))) []

/-! ## Notions used to state the properties -/

/-- The tokens the loop body does not drop by kind: raw identifiers, comments, literals. -/
def Token.interesting (T : Token) : Bool :=
  decide (T.Kind = tok.TokenKind.raw_identifier) || decide (T.Kind = tok.TokenKind.comment) ||
    tok.isLiteral T.Kind

/-- The colour `appendStyle` gives the range of `T`; `none` when it appends nothing. -/
def tokenStyle {LO : Type} (PP : Preprocessor LO) (LangOpts : LO) (T : Token) :
    Option Colors :=
  (appendStyle PP LangOpts [] T 0 0).head?.map StyleRange.Color

/-- The token lies on the target line alone: the three queries of the single-line path
are valid and both its start line and its end line are the target line. -/
def Token.SingleLineAt (T : Token) (LineNumber : Nat) : Prop :=
  T.EndLineNumber.Invalid = false ∧ T.StartLineNumber.Invalid = false ∧
    T.StartColumnNumber.Invalid = false ∧ T.StartLine = LineNumber ∧ T.EndLine = LineNumber

instance (T : Token) (LineNumber : Nat) : Decidable (T.SingleLineAt LineNumber) := by
  unfold Token.SingleLineAt
  infer_instance

/-- The token spans several lines and meets the target line: its four position queries are
valid, its end line lies after its start line, and the target line is one of its lines. -/
def Token.MultiLineAt (T : Token) (LineNumber : Nat) : Prop :=
  T.EndLineNumber.Invalid = false ∧ T.StartLineNumber.Invalid = false ∧
    T.StartColumnNumber.Invalid = false ∧ T.EndColumnNumber.Invalid = false ∧
    T.StartLine < T.EndLine ∧ T.StartLine ≤ LineNumber ∧ LineNumber ≤ T.EndLine

instance (T : Token) (LineNumber : Nat) : Decidable (T.MultiLineAt LineNumber) := by
  unfold Token.MultiLineAt
  infer_instance

/-- The text whose lines are the given fragments, separated by single line feeds. -/
def joinLines : List (List Char) → List Char
  | [] => []
  | [f] => f
  | f :: g :: fs => f ++ '\n' :: joinLines (g :: fs)

/-- The spelling of the token is made of the given fragments, one for each of its lines,
none of which holds a line-break character, separated by single line feeds. -/
def Token.SplitsInto (T : Token) (frags : List (List Char)) : Prop :=
  T.Spelling.data = joinLines frags ∧ frags.length = T.EndLine - T.StartLine + 1 ∧
    ∀ f ∈ frags, ∀ c ∈ f, isVerticalWhitespace c = false

instance (T : Token) (frags : List (List Char)) : Decidable (T.SplitsInto frags) := by
  unfold Token.SplitsInto
  infer_instance

/-- The range expected on the target line for a multi-line token with the given
fragments: from the start column over the first fragment on the first line, from column 0
to the end column on the last line, from column 0 over the fragment in between. -/
def fragmentSpan (T : Token) (frags : List (List Char)) (LineNumber : Nat) (c : Colors) :
    StyleRange :=
  if LineNumber = T.StartLine then
    ⟨T.StartCol, T.StartCol + (frags.getD 0 []).length, c⟩
  else if LineNumber = T.EndLine then
    ⟨0, T.EndCol, c⟩
  else
    ⟨0, (frags.getD (LineNumber - T.StartLine) []).length, c⟩

/-- The range `s` is one that the loop body can append for the token `T` when the target
line is `LineNumber`: the queries made on the way are valid, the token meets the line, and
the bounds of `s` are those of the single-line path or of one of the three cases of the
splitting loop (with `n` the number of characters counted on the line). -/
def Emits (LineNumber : Nat) (T : Token) (s : StyleRange) : Prop :=
  T.interesting = true ∧ T.EndLineNumber.Invalid = false ∧
    T.StartLineNumber.Invalid = false ∧ T.StartColumnNumber.Invalid = false ∧
    T.StartLine ≤ LineNumber ∧ LineNumber ≤ T.EndLine ∧
    ((T.StartLine = T.EndLine ∧ s.Start = T.StartCol ∧ s.End = u32 (T.StartCol + T.Length)) ∨
      (T.StartLine ≠ T.EndLine ∧ T.EndColumnNumber.Invalid = false ∧
        ((LineNumber = T.StartLine ∧ s.Start = T.StartCol ∧
            ∃ n, n ≤ T.Spelling.length ∧ s.End = u32 (T.StartCol + n)) ∨
          (LineNumber ≠ T.StartLine ∧ LineNumber = T.EndLine ∧ s.Start = 0 ∧
            s.End = u32 (0 + T.EndCol)) ∨
          (LineNumber ≠ T.StartLine ∧ LineNumber ≠ T.EndLine ∧ s.Start = 0 ∧
            ∃ n, n ≤ T.Spelling.length ∧ s.End = u32 (0 + n)))))

/-- The sums of the start column with the length and with the spelling length of the
token stay below `2^32` (as for every token of a buffer that clang can load). -/
def Token.NoWrap (T : Token) : Prop :=
  T.StartCol + T.Length < 2 ^ 32 ∧ T.StartCol + T.Spelling.length < 2 ^ 32

instance (T : Token) : Decidable T.NoWrap := by
  unfold Token.NoWrap
  infer_instance

/-- Source order of positions (line, column): by line first, by column on the same line. -/
def posLe (p q : Nat × Nat) : Prop :=
  p.1 < q.1 ∨ (p.1 = q.1 ∧ p.2 ≤ q.2)

instance (p q : Nat × Nat) : Decidable (posLe p q) := by
  unfold posLe
  infer_instance

/-- The position at which the token starts. -/
def Token.startPos (T : Token) : Nat × Nat := (T.StartLine, T.StartCol)

/-- The position at which the extent of the token ends: `Length` bytes after its start
when it lies on one line, its end location when it spans several lines. -/
def Token.extentEnd (T : Token) : Nat × Nat :=
  if T.StartLine = T.EndLine then (T.StartLine, T.StartCol + T.Length)
  else (T.EndLine, T.EndCol)

/-- The token is of a kind the loop looks at and the source manager knows where it lies:
the line and start-column queries are valid, and so is the end-column query when the
token spans several lines. -/
def Token.Located (T : Token) : Prop :=
  T.interesting = true ∧ T.EndLineNumber.Invalid = false ∧
    T.StartLineNumber.Invalid = false ∧ T.StartColumnNumber.Invalid = false ∧
    (T.StartLine ≠ T.EndLine → T.EndColumnNumber.Invalid = false)

instance (T : Token) : Decidable T.Located := by
  unfold Token.Located
  infer_instance

/-- The stream is in ascending source order with non-overlapping extents: of two located
tokens, the later one starts at or after the position where the earlier one ends. -/
def SourceOrdered (ts : List Token) : Prop :=
  ts.Pairwise (fun a b => a.Located → b.Located → posLe a.extentEnd b.startPos)

instance (ts : List Token) : Decidable (SourceOrdered ts) := by
  unfold SourceOrdered
  infer_instance

/-- The runs of characters of a text that lie between its line-break characters, every
line-break character ending one run (so there is one run more than line breaks). -/
def lineFragments : List Char → List (List Char)
  | [] => [[]]
  | c :: cs =>
    if isVerticalWhitespace c then [] :: lineFragments cs
    else (c :: (lineFragments cs).headD []) :: (lineFragments cs).tail

/-- The number of line-break characters of a text. -/
def lineBreaks (cs : List Char) : Nat := (cs.filter isVerticalWhitespace).length

/-- The token meets the target line: its two line queries are valid and the target line
lies between its start line and its end line. -/
def Token.meets (T : Token) (LineNumber : Nat) : Bool :=
  !T.EndLineNumber.Invalid && !T.StartLineNumber.Invalid &&
    decide (T.StartLine ≤ LineNumber) && decide (LineNumber ≤ T.EndLine)

/-- The tokens the loop of `highlightLine` walks over: none when the function returns
early, otherwise those the lexer delivers from the offset of the save point. -/
def walkedTokens {LO : Type} (PP : Option (Preprocessor LO)) (Buff : MemoryBuffer) (L : Lexer)
    (LineStart : Nat) : List Token :=
  match PP with
  | none => []
  | some P =>
    if P.hasExternalIdentifierLookup then []
    else L.tokensFrom (seekOffset Buff (P.getSaveFor LineStart))

/-- The ranges the loop body appends for a token it has let through: those of
`appendStyle` for the whole token when it lies on one line, those of the splitting loop
otherwise. -/
def tokenFragment {LO : Type} (LineNumber : Nat) (PP : Preprocessor LO) (LangOpts : LO)
    (T : Token) : List StyleRange :=
  if T.StartLine = T.EndLine then
    appendStyle PP LangOpts [] T T.StartCol T.Length
  else
    splitLoop PP LangOpts T LineNumber T.StartLine (T.EndLine - T.StartLine) T.StartCol
      T.EndCol T.Spelling.data 0 0 []

/-- The walker of the comparison, written after its description: it examines every token
of the stream, never stops early, and emits the fragment of each interesting, valid token
with `StartLine <= LineNumber <= EndLine`. -/
def exhaustiveWalk {LO : Type} (LineNumber : Nat) (PP : Preprocessor LO) (LangOpts : LO) :
    List Token → List StyleRange
  | [] => []
  | T :: rest =>
    (if T.Located ∧ T.StartLine ≤ LineNumber ∧ LineNumber ≤ T.EndLine then
        tokenFragment LineNumber PP LangOpts T
      else []) ++ exhaustiveWalk LineNumber PP LangOpts rest

/-- The stream is in non-decreasing source order: of two tokens whose start line is
known, the later one does not start on an earlier line. -/
def StartLinesAscending (ts : List Token) : Prop :=
  ts.Pairwise (fun a b => a.StartLineNumber.Invalid = false →
    b.StartLineNumber.Invalid = false → a.StartLine ≤ b.StartLine)

instance (ts : List Token) : Decidable (StartLinesAscending ts) := by
  unfold StartLinesAscending
  infer_instance

/-- One of the four position queries of the token is invalid. -/
def Token.anyInvalid (T : Token) : Bool :=
  T.EndLineNumber.Invalid || T.StartLineNumber.Invalid || T.StartColumnNumber.Invalid ||
    T.EndColumnNumber.Invalid

/-- The source manager answers the line query and the column query of one location alike:
for the start location both are valid or both invalid, and so for the end location. -/
def Token.Coherent (T : Token) : Prop :=
  T.StartLineNumber.Invalid = T.StartColumnNumber.Invalid ∧
    T.EndLineNumber.Invalid = T.EndColumnNumber.Invalid

instance (T : Token) : Decidable T.Coherent := by
  unfold Token.Coherent
  infer_instance

/-- One of the queries that the loop body makes for the token, in the order in which it
makes them for the target line, is reported invalid: the end line; or, the token not
ending before the target line, the start line; or, the token not starting after the
target line, the start column; or, the token spanning several lines, the end column. -/
def Token.reportsInvalid (T : Token) (LineNumber : Nat) : Bool :=
  T.interesting &&
    (T.EndLineNumber.Invalid ||
      (!decide (T.EndLine < LineNumber) &&
        (T.StartLineNumber.Invalid ||
          (!decide (T.StartLine > LineNumber) &&
            (T.StartColumnNumber.Invalid ||
              (!decide (T.StartLine = T.EndLine) && T.EndColumnNumber.Invalid))))))

/-- The lexer that delivers the tokens of `L` except those that satisfy `p`. -/
def Lexer.without (L : Lexer) (p : Token → Bool) : Lexer :=
  ⟨fun Offset => (L.tokensFrom Offset).filter (fun T => !p T)⟩

/-- The token lies inside a buffer whose line `l` has a text of `lineLength l` characters
(line break excluded): it starts and ends within the text of its first and last line,
and when it lies on one line its `Length` bytes end within that line. -/
def Token.InsideBuffer (T : Token) (lineLength : Nat → Nat) : Prop :=
  T.StartCol ≤ lineLength T.StartLine ∧ T.EndCol ≤ lineLength T.EndLine ∧
    (T.StartLine = T.EndLine → T.StartCol + T.Length ≤ lineLength T.StartLine)

instance (T : Token) (lineLength : Nat → Nat) : Decidable (T.InsideBuffer lineLength) := by
  unfold Token.InsideBuffer
  infer_instance

/-- The total length `End - Start` of what the loop body appends for the token when the
target line is `LineNumber` (nothing when it leaves the loop). -/
def spanLengthAt {LO : Type} (PP : Preprocessor LO) (LangOpts : LO) (T : Token)
    (LineNumber : Nat) : Nat :=
  match loopBody LineNumber PP LangOpts [] T with
  | some W => (W.map (fun s => s.End - s.Start)).sum
  | none => 0

/-- A token all of whose position queries are valid, given by its 0-based start and end
positions (the source manager answers with the 1-based numbers). -/
def tokenAt (Kind : tok.TokenKind) (RawIdentifier : String) (Length StartLine StartCol
    EndLine EndCol : Nat) (Spelling : String) : Token :=
  { Kind := Kind, RawIdentifier := RawIdentifier, Length := Length,
    EndLineNumber := ⟨EndLine + 1, false⟩, StartLineNumber := ⟨StartLine + 1, false⟩,
    StartColumnNumber := ⟨StartCol + 1, false⟩, EndColumnNumber := ⟨EndCol + 1, false⟩,
    Spelling := Spelling }

/-- A preprocessor without external identifier lookup whose keyword table knows `int`,
`return`, and also `true`, `false` and `nullptr`; it has no save point (null). -/
def samplePP : Preprocessor Unit :=
  { hasExternalIdentifierLookup := false,
    isKeyword := fun s _ =>
      s == "int" || s == "return" || s == "true" || s == "false" || s == "nullptr",
    getSaveFor := fun _ => 0 }

/-- A preprocessor like `samplePP` but with an external identifier lookup installed. -/
def externalPP : Preprocessor Unit :=
  { samplePP with hasExternalIdentifierLookup := true }

/-- A preprocessor like `samplePP` whose save point for every line is the address `150`. -/
def savePP : Preprocessor Unit :=
  { samplePP with getSaveFor := fun _ => 150 }

/-- A buffer of 100 bytes at address `100`. -/
def sampleBuffer : MemoryBuffer := ⟨100, 200⟩

/-- The identifier `true` at columns 8..12 of line 0. -/
def trueToken : Token := tokenAt tok.TokenKind.raw_identifier "true" 4 0 8 0 12 "true"

/-- The identifier `int` at columns 0..3 of line 0. -/
def intToken : Token := tokenAt tok.TokenKind.raw_identifier "int" 3 0 0 0 3 "int"

/-- The identifier `foobar` at columns 0..6 of line 0. -/
def foobarToken : Token := tokenAt tok.TokenKind.raw_identifier "foobar" 6 0 0 0 6 "foobar"

/-- The end-of-file token after `foobar`. -/
def eofToken : Token := tokenAt tok.TokenKind.eof "" 0 0 6 0 6 ""

/-- The numeric literal `42` at columns 4..6 of line 0. -/
def numberToken : Token := tokenAt tok.TokenKind.numeric_constant "" 2 0 4 0 6 "42"

/-- The line comment `// hi` at columns 7..12 of line 0. -/
def lineCommentToken : Token := tokenAt tok.TokenKind.comment "" 5 0 7 0 12 "// hi"

/-- The punctuator `;` at column 6 of line 0. -/
def semiToken : Token := tokenAt tok.TokenKind.punctuator "" 1 0 6 0 7 ";"

/-- A lexer that delivers the same tokens from every offset. -/
def constLexer (ts : List Token) : Lexer := ⟨fun _ => ts⟩

/-- A lexer that delivers `int` when started at offset `0` and `true` when started
anywhere else. -/
def offsetLexer : Lexer := ⟨fun Offset => if Offset = 0 then [intToken] else [trueToken]⟩

/-- A block comment that starts at column 4 of line 1 and ends at column 3 of line 3. -/
def blockCommentToken : Token :=
  tokenAt tok.TokenKind.comment "" 13 1 4 3 3 "/* a\nbcde\n */"

/-- The three lines of `blockCommentToken`. -/
def blockCommentLines : List (List Char) := ["/* a".data, "bcde".data, " */".data]

/-- The identifier `return` at columns 4..10 of line 3. -/
def returnToken : Token := tokenAt tok.TokenKind.raw_identifier "return" 6 3 4 3 10 "return"

/-- A stream in source order: `int 42 // hi` on line 0, a block comment from line 1 to
line 3, and `return` after it on line 3. -/
def sampleStream : List Token :=
  [intToken, numberToken, lineCommentToken, blockCommentToken, returnToken]

/-- The identifier `x` at column 4 of line 0. -/
def xToken : Token := tokenAt tok.TokenKind.raw_identifier "x" 1 0 4 0 5 "x"

/-- A blank at the given column of line 0; in keep-whitespace mode the raw lexer returns
white space as a token of kind `unknown`. -/
def spaceToken (Col : Nat) : Token := tokenAt tok.TokenKind.unknown "" 1 0 Col 0 (Col + 1) " "

/-- The tokens of the one-line buffer `int x = true;`, each at the columns at which it
stands in that text, up to the end-of-file token. -/
def scenarioALine : List Token :=
  [intToken, spaceToken 3, xToken, spaceToken 5,
    tokenAt tok.TokenKind.punctuator "" 1 0 6 0 7 "=", spaceToken 7, trueToken,
    tokenAt tok.TokenKind.punctuator "" 1 0 12 0 13 ";",
    tokenAt tok.TokenKind.eof "" 0 0 13 0 13 ""]

/-- A string literal written over two lines with a line continuation, `"abc\` on line 0
and `def"` on line 1: ten bytes in the buffer, ending at column 4 of line 1, while its
spelling, cleaned of the continuation, is `"abcdef"` and holds no line break. -/
def continuedStringToken : Token :=
  tokenAt tok.TokenKind.string_literal "" 10 0 0 1 4 "\"abcdef\""

/-- A block comment in a buffer with CR LF line ends, over the four lines `/*`,
`long line here`, `x` and `*/`: it starts at column 0 of line 0 and ends at column 2 of
line 3, and its spelling is its text in the buffer. -/
def crlfCommentToken : Token :=
  tokenAt tok.TokenKind.comment "" 25 0 0 3 2 "/*\r\nlong line here\r\nx\r\n*/"

/-- An identifier whose locations the source manager does not know: every query answers
`0` and reports `Invalid`. -/
def invalidToken : Token :=
  { Kind := tok.TokenKind.raw_identifier, RawIdentifier := "int", Length := 3,
    EndLineNumber := ⟨0, true⟩, StartLineNumber := ⟨0, true⟩,
    StartColumnNumber := ⟨0, true⟩, EndColumnNumber := ⟨0, true⟩, Spelling := "int" }

/-- The lengths of the two lines `"abc\` and `def"` that hold `continuedStringToken`. -/
def continuedStringLines (l : Nat) : Nat := [5, 4].getD l 0

/-- A line comment written over two lines with a line continuation, `// ab\` on line 0
and `cd` on line 1: nine bytes in the buffer, ending at column 2 of line 1, while its
spelling, cleaned of the continuation, is `// abcd` and holds no line break. -/
def continuedCommentToken : Token :=
  tokenAt tok.TokenKind.comment "" 9 0 0 1 2 "// abcd"

/-- The lengths of the four lines `/*`, `long line here`, `x` and `*/` that hold
`crlfCommentToken`. -/
def crlfCommentLines (l : Nat) : Nat := [2, 14, 1, 2].getD l 0

/-! ## Auxiliary lemmas -/

theorem u32_lt (n : Nat) : u32 n < 2 ^ 32 := Nat.mod_lt _ (by norm_num)

theorem u32_le (n : Nat) : u32 n ≤ n := Nat.mod_le _ _

theorem u32_of_lt {n : Nat} (h : n < 2 ^ 32) : u32 n = n := Nat.mod_eq_of_lt h

theorem appendStyle_append {LO : Type} (PP : Preprocessor LO) (LangOpts : LO)
    (Vec : List StyleRange) (T : Token) (Start Length : Nat) :
    appendStyle PP LangOpts Vec T Start Length =
      Vec ++ appendStyle PP LangOpts [] T Start Length := by
  by_cases h1 : T.Kind = tok.TokenKind.raw_identifier <;>
  by_cases h2 : (T.RawIdentifier = "true" ∨ T.RawIdentifier = "false" ∨
      T.RawIdentifier = "nullptr") <;>
  by_cases h3 : PP.isKeyword T.RawIdentifier LangOpts = true <;>
  by_cases h4 : tok.isLiteral T.Kind = true <;>
  simp [appendStyle, h1, h2, h3, h4]

theorem appendStyle_of_style {LO : Type} (PP : Preprocessor LO) (LangOpts : LO)
    (Vec : List StyleRange) (T : Token) (Start Length : Nat) (c : Colors)
    (h : tokenStyle PP LangOpts T = some c) :
    appendStyle PP LangOpts Vec T Start Length = Vec ++ [⟨Start, u32 (Start + Length), c⟩] := by
  revert h
  by_cases h1 : T.Kind = tok.TokenKind.raw_identifier <;>
  by_cases h2 : (T.RawIdentifier = "true" ∨ T.RawIdentifier = "false" ∨
      T.RawIdentifier = "nullptr") <;>
  by_cases h3 : PP.isKeyword T.RawIdentifier LangOpts = true <;>
  by_cases h4 : tok.isLiteral T.Kind = true <;>
  simp [tokenStyle, appendStyle, h1, h2, h3, h4]

theorem appendStyle_of_no_style {LO : Type} (PP : Preprocessor LO) (LangOpts : LO)
    (Vec : List StyleRange) (T : Token) (Start Length : Nat)
    (h : tokenStyle PP LangOpts T = none) :
    appendStyle PP LangOpts Vec T Start Length = Vec := by
  revert h
  by_cases h1 : T.Kind = tok.TokenKind.raw_identifier <;>
  by_cases h2 : (T.RawIdentifier = "true" ∨ T.RawIdentifier = "false" ∨
      T.RawIdentifier = "nullptr") <;>
  by_cases h3 : PP.isKeyword T.RawIdentifier LangOpts = true <;>
  by_cases h4 : tok.isLiteral T.Kind = true <;>
  simp [tokenStyle, appendStyle, h1, h2, h3, h4]

theorem emitFragment_append {LO : Type} (PP : Preprocessor LO) (LangOpts : LO) (T : Token)
    (NumLines StartCol EndCol L LineLength : Nat) (V : List StyleRange) :
    emitFragment PP LangOpts T NumLines StartCol EndCol L LineLength V =
      V ++ emitFragment PP LangOpts T NumLines StartCol EndCol L LineLength [] := by
  unfold emitFragment
  split_ifs <;> exact appendStyle_append _ _ _ _ _ _

theorem splitLoop_append {LO : Type} (PP : Preprocessor LO) (LangOpts : LO) (T : Token)
    (LineNumber StartLine NumLines StartCol EndCol : Nat) (cs : List Char) :
    ∀ (L LineLength : Nat) (V : List StyleRange),
      splitLoop PP LangOpts T LineNumber StartLine NumLines StartCol EndCol cs L LineLength V =
        V ++ splitLoop PP LangOpts T LineNumber StartLine NumLines StartCol EndCol cs L
          LineLength [] := by
  induction cs with
  | nil =>
    intro L LineLength V
    simp only [splitLoop]
    split_ifs
    · exact emitFragment_append _ _ _ _ _ _ _ _ _
    · simp
  | cons c rest ih =>
    intro L LineLength V
    simp only [splitLoop]
    split_ifs
    · exact emitFragment_append _ _ _ _ _ _ _ _ _
    · exact ih _ _ _
    · exact ih _ _ _

theorem loopBody_append {LO : Type} (LineNumber : Nat) (PP : Preprocessor LO) (LangOpts : LO)
    (V : List StyleRange) (T : Token) :
    loopBody LineNumber PP LangOpts V T =
      (loopBody LineNumber PP LangOpts [] T).map (fun W => V ++ W) := by
  by_cases h1 : T.Kind = tok.TokenKind.unknown
  · rw [loopBody, loopBody, if_pos h1, if_pos h1]; simp
  by_cases h2 : T.Kind ≠ tok.TokenKind.raw_identifier ∧ T.Kind ≠ tok.TokenKind.comment ∧
      tok.isLiteral T.Kind = false
  · rw [loopBody, loopBody, if_neg h1, if_neg h1, if_pos h2, if_pos h2]; simp
  by_cases h3 : T.EndLineNumber.Invalid = true
  · rw [loopBody, loopBody, if_neg h1, if_neg h1, if_neg h2, if_neg h2, if_pos h3, if_pos h3]
    simp
  by_cases h4 : T.EndLine < LineNumber
  · rw [loopBody, loopBody, if_neg h1, if_neg h1, if_neg h2, if_neg h2, if_neg h3, if_neg h3,
      if_pos h4, if_pos h4]
    simp
  by_cases h5 : T.StartLineNumber.Invalid = true
  · rw [loopBody, loopBody, if_neg h1, if_neg h1, if_neg h2, if_neg h2, if_neg h3, if_neg h3,
      if_neg h4, if_neg h4, if_pos h5, if_pos h5]
    simp
  by_cases h6 : T.StartLine > LineNumber
  · rw [loopBody, loopBody, if_neg h1, if_neg h1, if_neg h2, if_neg h2, if_neg h3, if_neg h3,
      if_neg h4, if_neg h4, if_neg h5, if_neg h5, if_pos h6, if_pos h6]
    simp
  by_cases h7 : T.StartColumnNumber.Invalid = true
  · rw [loopBody, loopBody, if_neg h1, if_neg h1, if_neg h2, if_neg h2, if_neg h3, if_neg h3,
      if_neg h4, if_neg h4, if_neg h5, if_neg h5, if_neg h6, if_neg h6, if_pos h7, if_pos h7]
    simp
  by_cases h8 : T.StartLine = T.EndLine
  · rw [loopBody, loopBody, if_neg h1, if_neg h1, if_neg h2, if_neg h2, if_neg h3, if_neg h3,
      if_neg h4, if_neg h4, if_neg h5, if_neg h5, if_neg h6, if_neg h6, if_neg h7, if_neg h7,
      if_pos h8, if_pos h8]
    simp only [Option.map_some']
    rw [appendStyle_append]
  by_cases h9 : T.EndColumnNumber.Invalid = true
  · rw [loopBody, loopBody, if_neg h1, if_neg h1, if_neg h2, if_neg h2, if_neg h3, if_neg h3,
      if_neg h4, if_neg h4, if_neg h5, if_neg h5, if_neg h6, if_neg h6, if_neg h7, if_neg h7,
      if_neg h8, if_neg h8, if_pos h9, if_pos h9]
    simp
  · rw [loopBody, loopBody, if_neg h1, if_neg h1, if_neg h2, if_neg h2, if_neg h3, if_neg h3,
      if_neg h4, if_neg h4, if_neg h5, if_neg h5, if_neg h6, if_neg h6, if_neg h7, if_neg h7,
      if_neg h8, if_neg h8, if_neg h9, if_neg h9]
    simp only [Option.map_some']
    rw [splitLoop_append]

theorem lexLoop_append {LO : Type} (LineNumber : Nat) (PP : Preprocessor LO) (LangOpts : LO)
    (ts : List Token) :
    ∀ V : List StyleRange,
      lexLoop LineNumber PP LangOpts ts V = V ++ lexLoop LineNumber PP LangOpts ts [] := by
  induction ts with
  | nil => intro V; simp [lexLoop]
  | cons T rest ih =>
    intro V
    simp only [lexLoop]
    rw [loopBody_append LineNumber PP LangOpts V T]
    cases h : loopBody LineNumber PP LangOpts [] T with
    | none => simp
    | some W =>
      simp only [Option.map_some']
      rw [ih (V ++ W), ih W, List.append_assoc]

theorem interesting_iff (T : Token) :
    T.interesting = true ↔
      ¬(T.Kind ≠ tok.TokenKind.raw_identifier ∧ T.Kind ≠ tok.TokenKind.comment ∧
        tok.isLiteral T.Kind = false) := by
  unfold Token.interesting
  by_cases h1 : T.Kind = tok.TokenKind.raw_identifier <;>
  by_cases h2 : T.Kind = tok.TokenKind.comment <;>
  by_cases h3 : tok.isLiteral T.Kind = true <;> simp [h1, h2, h3]

theorem interesting_ne_unknown (T : Token) (h : T.interesting = true) :
    T.Kind ≠ tok.TokenKind.unknown := by
  intro hk
  unfold Token.interesting at h
  rw [hk] at h
  revert h
  decide

theorem loopBody_not_interesting {LO : Type} (LineNumber : Nat) (PP : Preprocessor LO)
    (LangOpts : LO) (V : List StyleRange) (T : Token) (h : T.interesting = false) :
    loopBody LineNumber PP LangOpts V T = some V := by
  by_cases h1 : T.Kind = tok.TokenKind.unknown
  · rw [loopBody, if_pos h1]
  · have h2 : T.Kind ≠ tok.TokenKind.raw_identifier ∧ T.Kind ≠ tok.TokenKind.comment ∧
        tok.isLiteral T.Kind = false := by
      by_contra hc
      rw [← interesting_iff] at hc
      rw [hc] at h
      exact Bool.noConfusion h
    rw [loopBody, if_neg h1, if_pos h2]

/-- The loop body once the token has passed the checks on kind, line queries and start
column: only the choice between the single-line and the multi-line path is left. -/
theorem loopBody_reached {LO : Type} (LineNumber : Nat) (PP : Preprocessor LO)
    (LangOpts : LO) (V : List StyleRange) (T : Token) (hi : T.interesting = true)
    (h3 : T.EndLineNumber.Invalid = false) (h4 : LineNumber ≤ T.EndLine)
    (h5 : T.StartLineNumber.Invalid = false) (h6 : T.StartLine ≤ LineNumber)
    (h7 : T.StartColumnNumber.Invalid = false) :
    loopBody LineNumber PP LangOpts V T =
      if T.StartLine = T.EndLine then
        some (appendStyle PP LangOpts V T T.StartCol T.Length)
      else if T.EndColumnNumber.Invalid then some V
      else
        some (splitLoop PP LangOpts T LineNumber T.StartLine (T.EndLine - T.StartLine)
          T.StartCol T.EndCol T.Spelling.data 0 0 V) := by
  have h1 := interesting_ne_unknown T hi
  have h2 := (interesting_iff T).1 hi
  have h3' : ¬ T.EndLineNumber.Invalid = true := by simp [h3]
  have h5' : ¬ T.StartLineNumber.Invalid = true := by simp [h5]
  have h7' : ¬ T.StartColumnNumber.Invalid = true := by simp [h7]
  rw [loopBody, if_neg h1, if_neg h2, if_neg h3', if_neg (Nat.not_lt.2 h4), if_neg h5',
    if_neg (Nat.not_lt.2 h6), if_neg h7']

theorem loopBody_single {LO : Type} (LineNumber : Nat) (PP : Preprocessor LO)
    (LangOpts : LO) (V : List StyleRange) (T : Token) (hi : T.interesting = true)
    (h : T.SingleLineAt LineNumber) :
    loopBody LineNumber PP LangOpts V T =
      some (appendStyle PP LangOpts V T T.StartCol T.Length) := by
  obtain ⟨h3, h5, h7, hs, he⟩ := h
  rw [loopBody_reached LineNumber PP LangOpts V T hi h3 (le_of_eq he.symm) h5 (le_of_eq hs) h7,
    if_pos (hs.trans he.symm)]

theorem loopBody_multi {LO : Type} (LineNumber : Nat) (PP : Preprocessor LO)
    (LangOpts : LO) (V : List StyleRange) (T : Token) (hi : T.interesting = true)
    (h3 : T.EndLineNumber.Invalid = false) (h4 : LineNumber ≤ T.EndLine)
    (h5 : T.StartLineNumber.Invalid = false) (h6 : T.StartLine ≤ LineNumber)
    (h7 : T.StartColumnNumber.Invalid = false) (h8 : T.StartLine ≠ T.EndLine)
    (h9 : T.EndColumnNumber.Invalid = false) :
    loopBody LineNumber PP LangOpts V T =
      some (splitLoop PP LangOpts T LineNumber T.StartLine (T.EndLine - T.StartLine)
          T.StartCol T.EndCol T.Spelling.data 0 0 V) := by
  rw [loopBody_reached LineNumber PP LangOpts V T hi h3 h4 h5 h6 h7, if_neg h8]
  simp [h9]

/-- A token whose end line lies before the target line (or cannot be told) is passed over. -/
theorem loopBody_before {LO : Type} (LineNumber : Nat) (PP : Preprocessor LO)
    (LangOpts : LO) (V : List StyleRange) (T : Token)
    (h : T.EndLineNumber.Invalid = false → T.EndLine < LineNumber) :
    loopBody LineNumber PP LangOpts V T = some V := by
  by_cases h1 : T.Kind = tok.TokenKind.unknown
  · rw [loopBody, if_pos h1]
  by_cases h2 : T.Kind ≠ tok.TokenKind.raw_identifier ∧ T.Kind ≠ tok.TokenKind.comment ∧
      tok.isLiteral T.Kind = false
  · rw [loopBody, if_neg h1, if_pos h2]
  by_cases h3 : T.EndLineNumber.Invalid = true
  · rw [loopBody, if_neg h1, if_neg h2, if_pos h3]
  · rw [loopBody, if_neg h1, if_neg h2, if_neg h3, if_pos (h (by simpa using h3))]

/-- A token whose start line lies after the target line (or cannot be told) adds nothing:
the body either goes on with the same vector or leaves the loop. -/
theorem loopBody_after {LO : Type} (LineNumber : Nat) (PP : Preprocessor LO)
    (LangOpts : LO) (V : List StyleRange) (T : Token)
    (h : T.StartLineNumber.Invalid = false → LineNumber < T.StartLine) :
    loopBody LineNumber PP LangOpts V T = some V ∨
      loopBody LineNumber PP LangOpts V T = none := by
  by_cases h1 : T.Kind = tok.TokenKind.unknown
  · rw [loopBody, if_pos h1]; exact Or.inl rfl
  by_cases h2 : T.Kind ≠ tok.TokenKind.raw_identifier ∧ T.Kind ≠ tok.TokenKind.comment ∧
      tok.isLiteral T.Kind = false
  · rw [loopBody, if_neg h1, if_pos h2]; exact Or.inl rfl
  by_cases h3 : T.EndLineNumber.Invalid = true
  · rw [loopBody, if_neg h1, if_neg h2, if_pos h3]; exact Or.inl rfl
  by_cases h4 : T.EndLine < LineNumber
  · rw [loopBody, if_neg h1, if_neg h2, if_neg h3, if_pos h4]; exact Or.inl rfl
  by_cases h5 : T.StartLineNumber.Invalid = true
  · rw [loopBody, if_neg h1, if_neg h2, if_neg h3, if_neg h4, if_pos h5]; exact Or.inl rfl
  · have h6 : T.StartLine > LineNumber := h (by simpa using h5)
    rw [loopBody, if_neg h1, if_neg h2, if_neg h3, if_neg h4, if_neg h5, if_pos h6]
    exact Or.inr rfl

theorem lexLoop_cons_of_some {LO : Type} (LineNumber : Nat) (PP : Preprocessor LO)
    (LangOpts : LO) (T : Token) (rest : List Token) (V W : List StyleRange)
    (h : loopBody LineNumber PP LangOpts V T = some (V ++ W)) :
    lexLoop LineNumber PP LangOpts (T :: rest) V =
      V ++ (W ++ lexLoop LineNumber PP LangOpts rest []) := by
  rw [lexLoop, h]
  simp only
  rw [lexLoop_append, List.append_assoc]

theorem isLiteral_kinds (K : tok.TokenKind) (h : tok.isLiteral K = true) :
    K ≠ tok.TokenKind.raw_identifier ∧ K ≠ tok.TokenKind.comment ∧
      K ≠ tok.TokenKind.unknown := by
  cases K <;> simp_all [tok.isLiteral]

theorem appendStyle_literal {LO : Type} (PP : Preprocessor LO) (LangOpts : LO)
    (Vec : List StyleRange) (T : Token) (Start Length : Nat)
    (h : tok.isLiteral T.Kind = true) :
    appendStyle PP LangOpts Vec T Start Length =
      Vec ++ [⟨Start, u32 (Start + Length), LiteralColor⟩] := by
  have h1 := (isLiteral_kinds T.Kind h).1
  simp [appendStyle, h1, h]

theorem appendStyle_comment {LO : Type} (PP : Preprocessor LO) (LangOpts : LO)
    (Vec : List StyleRange) (T : Token) (Start Length : Nat)
    (h : T.Kind = tok.TokenKind.comment) :
    appendStyle PP LangOpts Vec T Start Length =
      Vec ++ [⟨Start, u32 (Start + Length), CommentColor⟩] := by
  simp [appendStyle, h, tok.isLiteral]

theorem appendStyle_reserved_literal {LO : Type} (PP : Preprocessor LO) (LangOpts : LO)
    (Vec : List StyleRange) (T : Token) (Start Length : Nat)
    (hk : T.Kind = tok.TokenKind.raw_identifier)
    (hs : T.RawIdentifier = "true" ∨ T.RawIdentifier = "false" ∨ T.RawIdentifier = "nullptr") :
    appendStyle PP LangOpts Vec T Start Length =
      Vec ++ [⟨Start, u32 (Start + Length), LiteralColor⟩] := by
  simp [appendStyle, hk, hs]

theorem appendStyle_identifier {LO : Type} (PP : Preprocessor LO) (LangOpts : LO)
    (Vec : List StyleRange) (T : Token) (Start Length : Nat)
    (hk : T.Kind = tok.TokenKind.raw_identifier)
    (hs : ¬(T.RawIdentifier = "true" ∨ T.RawIdentifier = "false" ∨
      T.RawIdentifier = "nullptr")) :
    appendStyle PP LangOpts Vec T Start Length =
      if PP.isKeyword T.RawIdentifier LangOpts = true then
        Vec ++ [⟨Start, u32 (Start + Length), KeywordColor⟩]
      else Vec := by
  simp only [appendStyle, hk, if_true, if_neg hs]

theorem interesting_of_raw_identifier (T : Token) (h : T.Kind = tok.TokenKind.raw_identifier) :
    T.interesting = true := by
  simp [Token.interesting, h]

theorem interesting_of_comment (T : Token) (h : T.Kind = tok.TokenKind.comment) :
    T.interesting = true := by
  simp [Token.interesting, h]

theorem interesting_of_literal (T : Token) (h : tok.isLiteral T.Kind = true) :
    T.interesting = true := by
  simp [Token.interesting, h]

theorem splitLoop_skip_clean {LO : Type} (PP : Preprocessor LO) (LangOpts : LO) (T : Token)
    (LineNumber StartLine NumLines StartCol EndCol : Nat) (f cs : List Char)
    (hf : ∀ c ∈ f, isVerticalWhitespace c = false) :
    ∀ (L LineLength : Nat) (V : List StyleRange),
      splitLoop PP LangOpts T LineNumber StartLine NumLines StartCol EndCol (f ++ cs) L
          LineLength V =
        splitLoop PP LangOpts T LineNumber StartLine NumLines StartCol EndCol cs L
          (LineLength + f.length) V := by
  induction f with
  | nil => intro L LineLength V; simp
  | cons c f ih =>
    intro L LineLength V
    have hc : isVerticalWhitespace c = false := hf c (List.mem_cons_self _ _)
    have hf' : ∀ d ∈ f, isVerticalWhitespace d = false :=
      fun d hd => hf d (List.mem_cons_of_mem _ hd)
    rw [List.cons_append, splitLoop]
    simp only [hc, Bool.false_eq_true, if_false]
    rw [ih hf', List.length_cons]
    congr 1
    omega

theorem splitLoop_joinLines {LO : Type} (PP : Preprocessor LO) (LangOpts : LO) (T : Token)
    (LineNumber StartLine NumLines StartCol EndCol : Nat) (hLN : LineNumber < 2 ^ 32)
    (frags : List (List Char)) :
    (∀ f ∈ frags, ∀ c ∈ f, isVerticalWhitespace c = false) →
    ∀ (L k : Nat) (V : List StyleRange), k < frags.length → StartLine + L + k = LineNumber →
      splitLoop PP LangOpts T LineNumber StartLine NumLines StartCol EndCol (joinLines frags)
          L 0 V =
        emitFragment PP LangOpts T NumLines StartCol EndCol (L + k) (frags.getD k []).length
          V := by
  induction frags with
  | nil => intro _ L k V hk; simp at hk
  | cons f fs ih =>
    intro hclean L k V hk hline
    have hf : ∀ c ∈ f, isVerticalWhitespace c = false := hclean f (List.mem_cons_self _ _)
    have hfs : ∀ g ∈ fs, ∀ c ∈ g, isVerticalWhitespace c = false :=
      fun g hg => hclean g (List.mem_cons_of_mem _ hg)
    cases fs with
    | nil =>
      have hk0 : k = 0 := by simpa using hk
      subst hk0
      have h0 : u32 (StartLine + L) = LineNumber := by
        rw [u32_of_lt (by omega)]; omega
      have := splitLoop_skip_clean PP LangOpts T LineNumber StartLine NumLines StartCol EndCol
        f [] hf L 0 V
      rw [List.append_nil] at this
      rw [joinLines, this, splitLoop, if_pos h0]
      simp
    | cons g gs =>
      rw [joinLines, splitLoop_skip_clean PP LangOpts T LineNumber StartLine NumLines StartCol
        EndCol f _ hf L 0 V, splitLoop]
      have hnl : isVerticalWhitespace '\n' = true := by decide
      rw [if_pos hnl]
      cases k with
      | zero =>
        have h0 : u32 (StartLine + L) = LineNumber := by
          rw [u32_of_lt (by omega)]; omega
        rw [if_pos h0]
        simp
      | succ k =>
        have h0 : ¬ u32 (StartLine + L) = LineNumber := by
          rw [u32_of_lt (by omega)]; omega
        rw [if_neg h0, ih hfs (L + 1) k V (by simpa using hk) (by omega)]
        have : L + 1 + k = L + (k + 1) := by omega
        rw [this]
        simp

theorem length_le_joinLines (frags : List (List Char)) :
    ∀ f ∈ frags, f.length ≤ (joinLines frags).length := by
  induction frags with
  | nil => intro f hf; simp at hf
  | cons g gs ih =>
    intro f hf
    cases gs with
    | nil =>
      have : f = g := by simpa using hf
      subst this
      simp [joinLines]
    | cons h hs =>
      rw [joinLines, List.length_append, List.length_cons]
      rcases List.mem_cons.1 hf with hfg | hfm
      · subst hfg; omega
      · have := ih f hfm
        omega

theorem getD_mem_of_lt (frags : List (List Char)) (k : Nat) (hk : k < frags.length) :
    frags.getD k [] ∈ frags := by
  rw [List.getD_eq_getElem frags [] hk]
  exact List.getElem_mem hk

theorem minusOne_lt (r : Lookup) : r.minusOne < 2 ^ 32 := u32_lt _

theorem lexLoop_before {LO : Type} (LineNumber : Nat) (PP : Preprocessor LO) (LangOpts : LO)
    (pre : List Token) :
    (∀ t ∈ pre, t.EndLineNumber.Invalid = false → t.EndLine < LineNumber) →
    ∀ (ts : List Token) (V : List StyleRange),
      lexLoop LineNumber PP LangOpts (pre ++ ts) V = lexLoop LineNumber PP LangOpts ts V := by
  induction pre with
  | nil => intro _ ts V; rfl
  | cons t pre ih =>
    intro h ts V
    rw [List.cons_append, lexLoop,
      loopBody_before LineNumber PP LangOpts V t (h t (List.mem_cons_self _ _))]
    exact ih (fun u hu => h u (List.mem_cons_of_mem _ hu)) ts V

theorem lexLoop_after {LO : Type} (LineNumber : Nat) (PP : Preprocessor LO) (LangOpts : LO)
    (post : List Token) :
    (∀ t ∈ post, t.StartLineNumber.Invalid = false → LineNumber < t.StartLine) →
    ∀ V : List StyleRange, lexLoop LineNumber PP LangOpts post V = V := by
  induction post with
  | nil => intro _ V; rfl
  | cons t post ih =>
    intro h V
    rw [lexLoop]
    rcases loopBody_after LineNumber PP LangOpts V t (h t (List.mem_cons_self _ _)) with hb | hb
    · rw [hb]
      exact ih (fun u hu => h u (List.mem_cons_of_mem _ hu)) V
    · rw [hb]

theorem splitLoop_of_splitsInto {LO : Type} (LineNumber : Nat) (PP : Preprocessor LO)
    (LangOpts : LO) (T : Token) (c : Colors) (frags : List (List Char))
    (hs : tokenStyle PP LangOpts T = some c) (hm : T.MultiLineAt LineNumber)
    (hf : T.SplitsInto frags) (hw : T.StartCol + T.Spelling.length < 2 ^ 32)
    (V : List StyleRange) :
    splitLoop PP LangOpts T LineNumber T.StartLine (T.EndLine - T.StartLine) T.StartCol
        T.EndCol T.Spelling.data 0 0 V = V ++ [fragmentSpan T frags LineNumber c] := by
  obtain ⟨_, _, _, _, hlt, h1, h2⟩ := hm
  obtain ⟨hsp, hlen, hclean⟩ := hf
  have hEnd : T.EndLine < 2 ^ 32 := minusOne_lt _
  have hk : LineNumber - T.StartLine < frags.length := by omega
  rw [hsp, splitLoop_joinLines PP LangOpts T LineNumber T.StartLine _ _ _ (by omega) frags
    hclean 0 (LineNumber - T.StartLine) V hk (by omega), Nat.zero_add]
  have hfl : ∀ k, k < frags.length → (frags.getD k []).length ≤ T.Spelling.length := by
    intro k hk
    have := length_le_joinLines frags _ (getD_mem_of_lt frags k hk)
    rw [← hsp] at this
    exact this
  unfold emitFragment fragmentSpan
  by_cases hfirst : LineNumber = T.StartLine
  · have h0 : LineNumber - T.StartLine = 0 := by omega
    have hl0 := hfl 0 (by omega)
    rw [if_pos h0, if_pos hfirst, h0, appendStyle_of_style PP LangOpts V T _ _ c hs,
      u32_of_lt (by omega)]
  · have h0 : ¬ LineNumber - T.StartLine = 0 := by omega
    rw [if_neg h0, if_neg hfirst]
    by_cases hlast : LineNumber = T.EndLine
    · have hN : LineNumber - T.StartLine = T.EndLine - T.StartLine := by omega
      have hE : T.EndCol < 2 ^ 32 := minusOne_lt _
      rw [if_pos hN, if_pos hlast, appendStyle_of_style PP LangOpts V T _ _ c hs,
        Nat.zero_add, u32_of_lt hE]
    · have hN : ¬ LineNumber - T.StartLine = T.EndLine - T.StartLine := by omega
      have hlk := hfl (LineNumber - T.StartLine) hk
      rw [if_neg hN, if_neg hlast, appendStyle_of_style PP LangOpts V T _ _ c hs,
        Nat.zero_add, u32_of_lt (by omega)]

theorem appendStyle_nil_cases {LO : Type} (PP : Preprocessor LO) (LangOpts : LO) (T : Token)
    (Start Length : Nat) :
    appendStyle PP LangOpts [] T Start Length = [] ∨
      ∃ c, appendStyle PP LangOpts [] T Start Length = [⟨Start, u32 (Start + Length), c⟩] := by
  cases h : tokenStyle PP LangOpts T with
  | none => exact Or.inl (appendStyle_of_no_style PP LangOpts [] T Start Length h)
  | some c => exact Or.inr ⟨c, by simpa using appendStyle_of_style PP LangOpts [] T Start Length c h⟩

theorem splitLoop_cases {LO : Type} (PP : Preprocessor LO) (LangOpts : LO) (T : Token)
    (LineNumber StartLine NumLines StartCol EndCol : Nat) (hLN : LineNumber < 2 ^ 32)
    (cs : List Char) :
    ∀ (L LineLength : Nat), StartLine + L ≤ LineNumber →
      splitLoop PP LangOpts T LineNumber StartLine NumLines StartCol EndCol cs L LineLength
          [] = [] ∨
        ∃ n, n ≤ LineLength + cs.length ∧
          splitLoop PP LangOpts T LineNumber StartLine NumLines StartCol EndCol cs L LineLength
              [] =
            emitFragment PP LangOpts T NumLines StartCol EndCol (LineNumber - StartLine) n
              [] := by
  induction cs with
  | nil =>
    intro L LineLength hL
    rw [splitLoop]
    by_cases h : u32 (StartLine + L) = LineNumber
    · rw [if_pos h]
      rw [u32_of_lt (by omega)] at h
      have : LineNumber - StartLine = L := by omega
      exact Or.inr ⟨LineLength, by simp, by rw [this]⟩
    · rw [if_neg h]; exact Or.inl rfl
  | cons c cs ih =>
    intro L LineLength hL
    rw [splitLoop]
    by_cases hc : isVerticalWhitespace c = true
    · rw [if_pos hc]
      by_cases h : u32 (StartLine + L) = LineNumber
      · rw [if_pos h]
        rw [u32_of_lt (by omega)] at h
        have : LineNumber - StartLine = L := by omega
        exact Or.inr ⟨LineLength, by simp, by rw [this]⟩
      · rw [if_neg h]
        rw [u32_of_lt (by omega)] at h
        rcases ih (L + 1) 0 (by omega) with h' | ⟨n, hn, h'⟩
        · exact Or.inl h'
        · exact Or.inr ⟨n, by simp only [List.length_cons]; omega, h'⟩
    · rw [if_neg hc]
      rcases ih L (LineLength + 1) hL with h' | ⟨n, hn, h'⟩
      · exact Or.inl h'
      · exact Or.inr ⟨n, by simp only [List.length_cons]; omega, h'⟩

theorem loopBody_cases {LO : Type} (LineNumber : Nat) (PP : Preprocessor LO) (LangOpts : LO)
    (T : Token) :
    loopBody LineNumber PP LangOpts [] T = none ∨
      loopBody LineNumber PP LangOpts [] T = some [] ∨
      ∃ s, loopBody LineNumber PP LangOpts [] T = some [s] ∧ Emits LineNumber T s := by
  by_cases hi : T.interesting = true
  swap
  · exact Or.inr (Or.inl (loopBody_not_interesting LineNumber PP LangOpts [] T
      (by simpa using hi)))
  by_cases h3 : T.EndLineNumber.Invalid = false
  swap
  · exact Or.inr (Or.inl (loopBody_before LineNumber PP LangOpts [] T
      (fun h => absurd h h3)))
  by_cases h4 : T.EndLine < LineNumber
  · exact Or.inr (Or.inl (loopBody_before LineNumber PP LangOpts [] T (fun _ => h4)))
  by_cases h5 : T.StartLineNumber.Invalid = false
  swap
  · rcases loopBody_after LineNumber PP LangOpts [] T (fun h => absurd h h5) with h | h
    · exact Or.inr (Or.inl h)
    · exact Or.inl h
  by_cases h6 : LineNumber < T.StartLine
  · rcases loopBody_after LineNumber PP LangOpts [] T (fun _ => h6) with h | h
    · exact Or.inr (Or.inl h)
    · exact Or.inl h
  have h4' : LineNumber ≤ T.EndLine := Nat.not_lt.1 h4
  have h6' : T.StartLine ≤ LineNumber := Nat.not_lt.1 h6
  by_cases h7 : T.StartColumnNumber.Invalid = false
  swap
  · right; left
    have h1 := interesting_ne_unknown T hi
    have h2 := (interesting_iff T).1 hi
    have h3' : ¬ T.EndLineNumber.Invalid = true := by simp [h3]
    have h5' : ¬ T.StartLineNumber.Invalid = true := by simp [h5]
    have h7' : T.StartColumnNumber.Invalid = true := by simpa using h7
    rw [loopBody, if_neg h1, if_neg h2, if_neg h3', if_neg h4, if_neg h5',
      if_neg (Nat.not_lt.2 h6'), if_pos h7']
  rw [loopBody_reached LineNumber PP LangOpts [] T hi h3 h4' h5 h6' h7]
  by_cases h8 : T.StartLine = T.EndLine
  · rw [if_pos h8]
    rcases appendStyle_nil_cases PP LangOpts T T.StartCol T.Length with h | ⟨c, h⟩
    · rw [h]; exact Or.inr (Or.inl rfl)
    · rw [h]
      exact Or.inr (Or.inr ⟨_, rfl, hi, h3, h5, h7, h6', h4', Or.inl ⟨h8, rfl, rfl⟩⟩)
  rw [if_neg h8]
  by_cases h9 : T.EndColumnNumber.Invalid = false
  swap
  · have h9' : T.EndColumnNumber.Invalid = true := by simpa using h9
    rw [if_pos h9']; exact Or.inr (Or.inl rfl)
  have h9' : ¬ T.EndColumnNumber.Invalid = true := by simp [h9]
  rw [if_neg h9']
  have hEnd : T.EndLine < 2 ^ 32 := minusOne_lt _
  rcases splitLoop_cases PP LangOpts T LineNumber T.StartLine (T.EndLine - T.StartLine)
      T.StartCol T.EndCol (by omega) T.Spelling.data 0 0 (by omega) with h | ⟨n, hn, h⟩
  · rw [h]; exact Or.inr (Or.inl rfl)
  rw [h]
  have hn' : n ≤ T.Spelling.length := by simpa using hn
  unfold emitFragment
  by_cases hfirst : LineNumber = T.StartLine
  · have h0 : LineNumber - T.StartLine = 0 := by omega
    rw [if_pos h0]
    rcases appendStyle_nil_cases PP LangOpts T T.StartCol n with h | ⟨c, h⟩
    · rw [h]; exact Or.inr (Or.inl rfl)
    · rw [h]
      exact Or.inr (Or.inr ⟨_, rfl, hi, h3, h5, h7, h6', h4',
        Or.inr ⟨h8, h9, Or.inl ⟨hfirst, rfl, n, hn', rfl⟩⟩⟩)
  · have h0 : ¬ LineNumber - T.StartLine = 0 := by omega
    rw [if_neg h0]
    by_cases hlast : LineNumber = T.EndLine
    · have hN : LineNumber - T.StartLine = T.EndLine - T.StartLine := by omega
      rw [if_pos hN]
      rcases appendStyle_nil_cases PP LangOpts T 0 T.EndCol with h | ⟨c, h⟩
      · rw [h]; exact Or.inr (Or.inl rfl)
      · rw [h]
        exact Or.inr (Or.inr ⟨_, rfl, hi, h3, h5, h7, h6', h4',
          Or.inr ⟨h8, h9, Or.inr (Or.inl ⟨hfirst, hlast, rfl, rfl⟩)⟩⟩)
    · have hN : ¬ LineNumber - T.StartLine = T.EndLine - T.StartLine := by omega
      rw [if_neg hN]
      rcases appendStyle_nil_cases PP LangOpts T 0 n with h | ⟨c, h⟩
      · rw [h]; exact Or.inr (Or.inl rfl)
      · rw [h]
        exact Or.inr (Or.inr ⟨_, rfl, hi, h3, h5, h7, h6', h4',
          Or.inr ⟨h8, h9, Or.inr (Or.inr ⟨hfirst, hlast, rfl, n, hn', rfl⟩)⟩⟩)

theorem lexLoop_cons_cases {LO : Type} (LineNumber : Nat) (PP : Preprocessor LO)
    (LangOpts : LO) (T : Token) (rest : List Token) :
    lexLoop LineNumber PP LangOpts (T :: rest) [] = [] ∨
      lexLoop LineNumber PP LangOpts (T :: rest) [] = lexLoop LineNumber PP LangOpts rest [] ∨
      ∃ s, Emits LineNumber T s ∧
        lexLoop LineNumber PP LangOpts (T :: rest) [] =
          s :: lexLoop LineNumber PP LangOpts rest [] := by
  rcases loopBody_cases LineNumber PP LangOpts T with h | h | ⟨s, h, he⟩
  · left; rw [lexLoop, h]
  · right; left; rw [lexLoop, h]
  · right; right
    refine ⟨s, he, ?_⟩
    rw [lexLoop, h]
    simp only
    rw [lexLoop_append]
    rfl

theorem lexLoop_mem_emits {LO : Type} (LineNumber : Nat) (PP : Preprocessor LO)
    (LangOpts : LO) (ts : List Token) :
    ∀ s ∈ lexLoop LineNumber PP LangOpts ts [], ∃ T ∈ ts, Emits LineNumber T s := by
  induction ts with
  | nil => intro s hs; simp [lexLoop] at hs
  | cons T rest ih =>
    intro s hs
    rcases lexLoop_cons_cases LineNumber PP LangOpts T rest with h | h | ⟨s', he, h⟩
    · rw [h] at hs; simp at hs
    · rw [h] at hs
      obtain ⟨U, hU, hUe⟩ := ih s hs
      exact ⟨U, List.mem_cons_of_mem _ hU, hUe⟩
    · rw [h] at hs
      rcases List.mem_cons.1 hs with hs | hs
      · subst hs
        exact ⟨T, List.mem_cons_self _ _, he⟩
      · obtain ⟨U, hU, hUe⟩ := ih s hs
        exact ⟨U, List.mem_cons_of_mem _ hU, hUe⟩

theorem highlightLine_cases {LO : Type} (LineNumber : Nat) (PP : Option (Preprocessor LO))
    (LangOpts : LO) (Buff : MemoryBuffer) (L : Lexer) (LineStart : Nat) :
    highlightLine LineNumber PP LangOpts Buff L LineStart = [] ∨
      ∃ (P : Preprocessor LO) (Offset : Nat),
        highlightLine LineNumber PP LangOpts Buff L LineStart =
          lexLoop LineNumber P LangOpts (L.tokensFrom Offset) [] := by
  cases PP with
  | none => exact Or.inl rfl
  | some P =>
    by_cases hx : P.hasExternalIdentifierLookup = true
    · left; simp [highlightLine, hx]
    · right
      exact ⟨P, seekOffset Buff (P.getSaveFor LineStart), by simp [highlightLine, hx]⟩

theorem emits_start_le_end (LineNumber : Nat) (T : Token) (s : StyleRange)
    (he : Emits LineNumber T s) (hw : T.NoWrap) : s.Start ≤ s.End := by
  obtain ⟨_, _, _, _, _, _, hcase⟩ := he
  obtain ⟨hw1, hw2⟩ := hw
  rcases hcase with ⟨_, hS, hE⟩ | ⟨_, _, ⟨_, hS, n, hn, hE⟩ | ⟨_, _, hS, hE⟩ | ⟨_, _, hS, n, hn, hE⟩⟩
  · rw [hS, hE, u32_of_lt hw1]; omega
  · rw [hS, hE, u32_of_lt (by omega)]; omega
  · rw [hS]; omega
  · rw [hS]; omega

theorem emits_located (LineNumber : Nat) (T : Token) (s : StyleRange)
    (he : Emits LineNumber T s) : T.Located := by
  obtain ⟨hi, h3, h5, h7, _, _, hcase⟩ := he
  refine ⟨hi, h3, h5, h7, ?_⟩
  intro hne
  rcases hcase with ⟨heq, _⟩ | ⟨_, h9, _⟩
  · exact absurd heq hne
  · exact h9

/-- Ranges appended for tokens that all start at or after the position `P` lie on a
target line not before the line of `P`, and start at or after the column of `P` when the
target line is the line of `P`. -/
theorem lexLoop_lower_bound {LO : Type} (LineNumber : Nat) (PP : Preprocessor LO)
    (LangOpts : LO) (P : Nat × Nat) (ts : List Token)
    (hP : ∀ b ∈ ts, b.Located → posLe P b.startPos) :
    ∀ s ∈ lexLoop LineNumber PP LangOpts ts [],
      P.1 ≤ LineNumber ∧ (P.1 = LineNumber → P.2 ≤ s.Start) := by
  intro s hs
  obtain ⟨T, hT, he⟩ := lexLoop_mem_emits LineNumber PP LangOpts ts s hs
  have hpos := hP T hT (emits_located LineNumber T s he)
  obtain ⟨_, _, _, _, h1, h2, hcase⟩ := he
  have hpos' : P.1 < T.StartLine ∨ (P.1 = T.StartLine ∧ P.2 ≤ T.StartCol) := hpos
  clear hpos hs hP hT
  constructor
  · rcases hpos' with h | ⟨h, _⟩
    · exact Nat.le_trans (Nat.le_of_lt h) h1
    · rw [h]; exact h1
  · intro hPl
    have hcol : LineNumber = T.StartLine ∧ P.2 ≤ T.StartCol := by
      rcases hpos' with h | ⟨h, hc⟩
      · exact absurd h1 (Nat.not_le.2 (hPl ▸ h))
      · exact ⟨hPl.symm.trans h, hc⟩
    rcases hcase with ⟨_, hS, _⟩ | ⟨_, _, ⟨_, hS, _⟩ | ⟨hne, _⟩ | ⟨hne, _⟩⟩
    · rw [hS]; exact hcol.2
    · rw [hS]; exact hcol.2
    · exact absurd hcol.1 hne
    · exact absurd hcol.1 hne

theorem emits_before_extent_end (LineNumber : Nat) (T : Token) (s : StyleRange)
    (he : Emits LineNumber T s) (hline : T.extentEnd.1 ≤ LineNumber) :
    s.Start ≤ T.extentEnd.2 ∧ s.End ≤ T.extentEnd.2 := by
  obtain ⟨_, _, _, _, h1, h2, hcase⟩ := he
  unfold Token.extentEnd at hline ⊢
  rcases hcase with ⟨heq, hS, hE⟩ | ⟨hne, _, hrest⟩
  · rw [if_pos heq]
    simp only
    rw [hS, hE]
    exact ⟨Nat.le_add_right _ _, u32_le _⟩
  · rw [if_neg hne] at hline ⊢
    simp only at hline ⊢
    rcases hrest with ⟨hfirst, _⟩ | ⟨_, _, hS, hE⟩ | ⟨_, hlast, _⟩
    · omega
    · rw [hS, hE, Nat.zero_add]
      exact ⟨Nat.zero_le _, u32_le _⟩
    · omega

theorem lexLoop_sorted {LO : Type} (LineNumber : Nat) (PP : Preprocessor LO) (LangOpts : LO)
    (ts : List Token) :
    SourceOrdered ts →
      (lexLoop LineNumber PP LangOpts ts []).Pairwise
        (fun s t => s.Start ≤ t.Start ∧ s.End ≤ t.Start) := by
  induction ts with
  | nil => intro _; simp [lexLoop]
  | cons T rest ih =>
    intro hord
    unfold SourceOrdered at hord
    rw [List.pairwise_cons] at hord
    obtain ⟨hT, hrest⟩ := hord
    have ihr := ih hrest
    rcases lexLoop_cons_cases LineNumber PP LangOpts T rest with h | h | ⟨s, he, h⟩
    · rw [h]; exact List.Pairwise.nil
    · rw [h]; exact ihr
    · rw [h, List.pairwise_cons]
      refine ⟨?_, ihr⟩
      intro t ht
      have hloc := emits_located LineNumber T s he
      have hb := lexLoop_lower_bound LineNumber PP LangOpts T.extentEnd rest
        (fun b hb hbl => hT b hb hloc hbl) t ht
      have hle := emits_before_extent_end LineNumber T s he hb.1
      have hline : T.extentEnd.1 = LineNumber := by
        obtain ⟨_, _, _, _, h1, h2, hcase⟩ := he
        have := hb.1
        unfold Token.extentEnd at this ⊢
        by_cases heq : T.StartLine = T.EndLine
        · rw [if_pos heq] at this ⊢
          simp only at this ⊢
          omega
        · rw [if_neg heq] at this ⊢
          simp only at this ⊢
          omega
      have := hb.2 hline
      omega

theorem appendStyle_colors {LO : Type} (PP : Preprocessor LO) (LangOpts : LO) (T : Token)
    (Start Length : Nat) :
    ∀ s ∈ appendStyle PP LangOpts [] T Start Length, tokenStyle PP LangOpts T = some s.Color := by
  intro s hs
  cases h : tokenStyle PP LangOpts T with
  | none =>
    rw [appendStyle_of_no_style PP LangOpts [] T Start Length h] at hs
    simp at hs
  | some c =>
    rw [appendStyle_of_style PP LangOpts [] T Start Length c h] at hs
    have : s = ⟨Start, u32 (Start + Length), c⟩ := by simpa using hs
    rw [this]

theorem splitLoop_colors {LO : Type} (PP : Preprocessor LO) (LangOpts : LO) (T : Token)
    (LineNumber StartLine NumLines StartCol EndCol : Nat) (cs : List Char) :
    ∀ (L LineLength : Nat),
      ∀ s ∈ splitLoop PP LangOpts T LineNumber StartLine NumLines StartCol EndCol cs L
        LineLength [], tokenStyle PP LangOpts T = some s.Color := by
  have hemit : ∀ (L LineLength : Nat),
      ∀ s ∈ emitFragment PP LangOpts T NumLines StartCol EndCol L LineLength [],
        tokenStyle PP LangOpts T = some s.Color := by
    intro L LineLength s hs
    unfold emitFragment at hs
    split_ifs at hs <;> exact appendStyle_colors PP LangOpts T _ _ s hs
  induction cs with
  | nil =>
    intro L LineLength s hs
    rw [splitLoop] at hs
    split_ifs at hs
    · exact hemit _ _ s hs
    · simp at hs
  | cons c cs ih =>
    intro L LineLength s hs
    rw [splitLoop] at hs
    split_ifs at hs
    · exact hemit _ _ s hs
    · exact ih _ _ s hs
    · exact ih _ _ s hs

/-- Every range the loop body appends for a token carries the colour that `appendStyle`
gives to that token. -/
theorem loopBody_colors {LO : Type} (LineNumber : Nat) (PP : Preprocessor LO) (LangOpts : LO)
    (T : Token) (s : StyleRange) (h : loopBody LineNumber PP LangOpts [] T = some [s])
    (he : Emits LineNumber T s) : tokenStyle PP LangOpts T = some s.Color := by
  obtain ⟨hi, h3, h5, h7, h1, h2, _⟩ := he
  rw [loopBody_reached LineNumber PP LangOpts [] T hi h3 h2 h5 h1 h7] at h
  split_ifs at h with h8 h9
  · have hm : s ∈ appendStyle PP LangOpts [] T T.StartCol T.Length := by
      rw [Option.some.inj h]; exact List.mem_singleton_self s
    exact appendStyle_colors PP LangOpts T _ _ s hm
  · have := Option.some.inj h
    simp at this
  · have hm : s ∈ splitLoop PP LangOpts T LineNumber T.StartLine (T.EndLine - T.StartLine)
        T.StartCol T.EndCol T.Spelling.data 0 0 [] := by
      rw [Option.some.inj h]; exact List.mem_singleton_self s
    exact splitLoop_colors PP LangOpts T _ _ _ _ _ _ _ _ s hm

/-- The three outcomes of the loop body for a token to which `appendStyle` gives the
colour `c`: leave the loop, go on with the vector unchanged, or go on with one more range,
of colour `c`. -/
theorem loopBody_of_style {LO : Type} (LineNumber : Nat) (PP : Preprocessor LO)
    (LangOpts : LO) (T : Token) (c : Colors) (hs : tokenStyle PP LangOpts T = some c)
    (V : List StyleRange) :
    loopBody LineNumber PP LangOpts V T = none ∨
      loopBody LineNumber PP LangOpts V T = some V ∨
      ∃ Start End, loopBody LineNumber PP LangOpts V T = some (V ++ [⟨Start, End, c⟩]) := by
  rw [loopBody_append]
  rcases loopBody_cases LineNumber PP LangOpts T with h | h | ⟨s, h, he⟩
  · left; rw [h]; rfl
  · right; left; rw [h]; simp
  · right; right
    have hc := loopBody_colors LineNumber PP LangOpts T s h he
    rw [hs] at hc
    have hc' : s.Color = c := (Option.some.inj hc).symm
    refine ⟨s.Start, s.End, ?_⟩
    rw [h, ← hc']
    rfl

theorem tokenStyle_literal {LO : Type} (PP : Preprocessor LO) (LangOpts : LO) (T : Token)
    (h : tok.isLiteral T.Kind = true) : tokenStyle PP LangOpts T = some LiteralColor := by
  unfold tokenStyle
  rw [appendStyle_literal PP LangOpts [] T 0 0 h]
  rfl

theorem tokenStyle_comment {LO : Type} (PP : Preprocessor LO) (LangOpts : LO) (T : Token)
    (h : T.Kind = tok.TokenKind.comment) : tokenStyle PP LangOpts T = some CommentColor := by
  unfold tokenStyle
  rw [appendStyle_comment PP LangOpts [] T 0 0 h]
  rfl

theorem lineFragments_ne_nil (cs : List Char) : lineFragments cs ≠ [] := by
  cases cs with
  | nil => simp [lineFragments]
  | cons c cs =>
    rw [lineFragments]
    split_ifs <;> simp

theorem length_lineFragments (cs : List Char) :
    (lineFragments cs).length = lineBreaks cs + 1 := by
  induction cs with
  | nil => simp [lineFragments, lineBreaks]
  | cons c cs ih =>
    rw [lineFragments]
    unfold lineBreaks at ih ⊢
    by_cases hc : isVerticalWhitespace c = true
    · rw [if_pos hc, List.filter_cons_of_pos hc]
      simp [ih]
    · rw [if_neg hc, List.filter_cons_of_neg hc]
      have hne := lineFragments_ne_nil cs
      rw [List.length_cons, List.length_tail, ← ih]
      have : 0 < (lineFragments cs).length := List.length_pos.2 hne
      omega

/-- What the splitting loop does with the rest `cs` of the spelling: with `k` lines still
to go to the target line, it appends the fragment for the run of `cs` with index `k`
(the first run continuing the count `LineLength`), and nothing when `cs` has no such run. -/
theorem splitLoop_eq_fragments {LO : Type} (PP : Preprocessor LO) (LangOpts : LO) (T : Token)
    (LineNumber StartLine NumLines StartCol EndCol : Nat) (hLN : LineNumber < 2 ^ 32)
    (cs : List Char) :
    ∀ (L LineLength k : Nat) (V : List StyleRange), StartLine + L + k = LineNumber →
      splitLoop PP LangOpts T LineNumber StartLine NumLines StartCol EndCol cs L LineLength V =
        if k < (lineFragments cs).length then
          emitFragment PP LangOpts T NumLines StartCol EndCol (L + k)
            ((if k = 0 then LineLength else 0) + ((lineFragments cs).getD k []).length) V
        else V := by
  induction cs with
  | nil =>
    intro L LineLength k V hk
    rw [splitLoop]
    cases k with
    | zero =>
      have h0 : u32 (StartLine + L) = LineNumber := by
        rw [u32_of_lt (by omega)]; omega
      rw [if_pos h0]
      simp [lineFragments]
    | succ k =>
      have h0 : ¬ u32 (StartLine + L) = LineNumber := by
        rw [u32_of_lt (by omega)]; omega
      rw [if_neg h0]
      simp [lineFragments]
  | cons c cs ih =>
    intro L LineLength k V hk
    rw [splitLoop, lineFragments]
    by_cases hc : isVerticalWhitespace c = true
    · rw [if_pos hc, if_pos hc]
      cases k with
      | zero =>
        have h0 : u32 (StartLine + L) = LineNumber := by
          rw [u32_of_lt (by omega)]; omega
        rw [if_pos h0]
        simp
      | succ k =>
        have h0 : ¬ u32 (StartLine + L) = LineNumber := by
          rw [u32_of_lt (by omega)]; omega
        rw [if_neg h0, ih (L + 1) 0 k V (by omega)]
        have e1 : L + 1 + k = L + (k + 1) := by omega
        simp only [List.length_cons, List.getD_cons_succ, Nat.add_lt_add_iff_right, e1,
          Nat.succ_ne_zero, if_false, ite_self]
    · rw [if_neg hc, if_neg hc, ih L (LineLength + 1) k V hk]
      have hne := lineFragments_ne_nil cs
      cases hl : lineFragments cs with
      | nil => exact absurd hl hne
      | cons g gs =>
        simp only [List.headD_cons, List.tail_cons, List.length_cons]
        cases k with
        | zero =>
          simp only [List.getD_cons_zero, List.length_cons, if_true]
          have : LineLength + 1 + g.length = LineLength + (g.length + 1) := by omega
          rw [this]
        | succ k =>
          simp only [List.getD_cons_succ, Nat.succ_ne_zero, if_false]

theorem emitFragment_of_style {LO : Type} (PP : Preprocessor LO) (LangOpts : LO) (T : Token)
    (c : Colors) (hs : tokenStyle PP LangOpts T = some c)
    (NumLines StartCol EndCol L LineLength : Nat) (V : List StyleRange) :
    emitFragment PP LangOpts T NumLines StartCol EndCol L LineLength V =
      V ++ [⟨if L = 0 then StartCol else 0,
        u32 (if L = 0 then StartCol + LineLength else if L = NumLines then 0 + EndCol
          else 0 + LineLength), c⟩] := by
  unfold emitFragment
  by_cases h0 : L = 0
  · rw [if_pos h0, if_pos h0, if_pos h0, appendStyle_of_style PP LangOpts V T _ _ c hs]
  · rw [if_neg h0, if_neg h0, if_neg h0]
    by_cases hN : L = NumLines
    · rw [if_pos hN, if_pos hN, appendStyle_of_style PP LangOpts V T _ _ c hs]
    · rw [if_neg hN, if_neg hN, appendStyle_of_style PP LangOpts V T _ _ c hs]

/-- The loop body for a multi-line token that meets the target line, in terms of the
runs of its spelling. -/
theorem loopBody_multi_fragments {LO : Type} (LineNumber : Nat) (PP : Preprocessor LO)
    (LangOpts : LO) (T : Token) (hi : T.interesting = true) (hm : T.MultiLineAt LineNumber)
    (V : List StyleRange) :
    loopBody LineNumber PP LangOpts V T =
      some (if LineNumber - T.StartLine < lineBreaks T.Spelling.data + 1 then
          emitFragment PP LangOpts T (T.EndLine - T.StartLine) T.StartCol T.EndCol
            (LineNumber - T.StartLine)
            ((lineFragments T.Spelling.data).getD (LineNumber - T.StartLine) []).length V
        else V) := by
  obtain ⟨h3, h5, h7, h9, hlt, h1, h2⟩ := hm
  have hEnd : T.EndLine < 2 ^ 32 := minusOne_lt _
  rw [loopBody_multi LineNumber PP LangOpts V T hi h3 h2 h5 h1 h7 (Nat.ne_of_lt hlt) h9,
    splitLoop_eq_fragments PP LangOpts T LineNumber T.StartLine _ _ _ (by omega)
      T.Spelling.data 0 0 (LineNumber - T.StartLine) V (by omega),
    length_lineFragments, Nat.zero_add]
  simp only [ite_self, Nat.zero_add]

theorem getD_zero_lineFragments (cs : List Char) :
    (lineFragments cs).getD 0 [] = cs.takeWhile (fun ch => !isVerticalWhitespace ch) := by
  induction cs with
  | nil => simp [lineFragments]
  | cons c cs ih =>
    rw [lineFragments]
    by_cases hc : isVerticalWhitespace c = true
    · rw [if_pos hc]
      simp [List.takeWhile, hc]
    · rw [if_neg hc]
      have hc' : isVerticalWhitespace c = false := by simpa using hc
      simp only [List.getD_cons_zero, List.takeWhile, hc', Bool.not_false]
      rw [← ih]
      cases lineFragments cs <;> simp

theorem emits_meets (LineNumber : Nat) (T : Token) (s : StyleRange)
    (he : Emits LineNumber T s) : (T.interesting && T.meets LineNumber) = true := by
  obtain ⟨hi, h3, h5, _, h1, h2, _⟩ := he
  simp [Token.meets, hi, h3, h5, h1, h2]

theorem lexLoop_length_le {LO : Type} (LineNumber : Nat) (PP : Preprocessor LO)
    (LangOpts : LO) (ts : List Token) :
    (lexLoop LineNumber PP LangOpts ts []).length ≤
      (ts.filter (fun T => T.interesting && T.meets LineNumber)).length := by
  induction ts with
  | nil => simp [lexLoop]
  | cons T rest ih =>
    rcases lexLoop_cons_cases LineNumber PP LangOpts T rest with h | h | ⟨s, he, h⟩
    · rw [h]; exact Nat.zero_le _
    · rw [h]
      exact Nat.le_trans ih (List.Sublist.length_le
        (List.Sublist.filter _ (List.sublist_cons_self T rest)))
    · rw [h]
      simp only [List.filter_cons, emits_meets LineNumber T s he, if_true, List.length_cons]
      omega

theorem highlightLine_eq_walked {LO : Type} (LineNumber : Nat) (PP : Option (Preprocessor LO))
    (LangOpts : LO) (Buff : MemoryBuffer) (L : Lexer) (LineStart : Nat) :
    highlightLine LineNumber PP LangOpts Buff L LineStart = [] ∨
      ∃ P : Preprocessor LO, highlightLine LineNumber PP LangOpts Buff L LineStart =
        lexLoop LineNumber P LangOpts (walkedTokens PP Buff L LineStart) [] := by
  cases PP with
  | none => exact Or.inl rfl
  | some P =>
    by_cases hx : P.hasExternalIdentifierLookup = true
    · left; simp [highlightLine, hx]
    · right
      exact ⟨P, by simp [highlightLine, walkedTokens, hx]⟩

/-- The loop body on the empty vector: it leaves the loop exactly at an interesting token
whose line queries are valid, that does not end before the target line and that starts
after it; otherwise it goes on with the fragment of the token when the token is located
and meets the target line, and with nothing else. -/
theorem loopBody_eq_fragment {LO : Type} (LineNumber : Nat) (PP : Preprocessor LO)
    (LangOpts : LO) (T : Token) :
    loopBody LineNumber PP LangOpts [] T =
      if T.interesting = true ∧ T.EndLineNumber.Invalid = false ∧ LineNumber ≤ T.EndLine ∧
          T.StartLineNumber.Invalid = false ∧ LineNumber < T.StartLine then none
      else some (if T.Located ∧ T.StartLine ≤ LineNumber ∧ LineNumber ≤ T.EndLine then
          tokenFragment LineNumber PP LangOpts T else []) := by
  by_cases hi : T.interesting = true
  swap
  · rw [loopBody_not_interesting LineNumber PP LangOpts [] T (by simpa using hi),
      if_neg (fun h => hi h.1), if_neg (fun h => hi h.1.1)]
  by_cases h3 : T.EndLineNumber.Invalid = false
  swap
  · rw [loopBody_before LineNumber PP LangOpts [] T (fun h => absurd h h3),
      if_neg (fun h => h3 h.2.1), if_neg (fun h => h3 h.1.2.1)]
  by_cases h4 : T.EndLine < LineNumber
  · rw [loopBody_before LineNumber PP LangOpts [] T (fun _ => h4),
      if_neg (fun h => absurd h.2.2.1 (Nat.not_le.2 h4)),
      if_neg (fun h => absurd h.2.2 (Nat.not_le.2 h4))]
  have h4' : LineNumber ≤ T.EndLine := Nat.not_lt.1 h4
  have h1 := interesting_ne_unknown T hi
  have h2 := (interesting_iff T).1 hi
  have h3' : ¬ T.EndLineNumber.Invalid = true := by simp [h3]
  by_cases h5 : T.StartLineNumber.Invalid = false
  swap
  · have h5' : T.StartLineNumber.Invalid = true := by simpa using h5
    rw [loopBody, if_neg h1, if_neg h2, if_neg h3', if_neg h4, if_pos h5',
      if_neg (fun h => h5 h.2.2.2.1), if_neg (fun h => h5 h.1.2.2.1)]
  by_cases h6 : LineNumber < T.StartLine
  · have h5' : ¬ T.StartLineNumber.Invalid = true := by simp [h5]
    rw [loopBody, if_neg h1, if_neg h2, if_neg h3', if_neg h4, if_neg h5', if_pos h6,
      if_pos ⟨hi, h3, h4', h5, h6⟩]
  have h6' : T.StartLine ≤ LineNumber := Nat.not_lt.1 h6
  rw [if_neg (fun h => h6 h.2.2.2.2)]
  by_cases h7 : T.StartColumnNumber.Invalid = false
  swap
  · have h5' : ¬ T.StartLineNumber.Invalid = true := by simp [h5]
    have h7' : T.StartColumnNumber.Invalid = true := by simpa using h7
    rw [loopBody, if_neg h1, if_neg h2, if_neg h3', if_neg h4, if_neg h5', if_neg h6,
      if_pos h7', if_neg (fun h => h7 h.1.2.2.2.1)]
  rw [loopBody_reached LineNumber PP LangOpts [] T hi h3 h4' h5 h6' h7]
  by_cases h8 : T.StartLine = T.EndLine
  · rw [if_pos h8, if_pos ⟨⟨hi, h3, h5, h7, fun hne => absurd h8 hne⟩, h6', h4'⟩, tokenFragment,
      if_pos h8]
  rw [if_neg h8]
  by_cases h9 : T.EndColumnNumber.Invalid = false
  · have h9' : ¬ T.EndColumnNumber.Invalid = true := by simp [h9]
    rw [if_neg h9', if_pos ⟨⟨hi, h3, h5, h7, fun _ => h9⟩, h6', h4'⟩, tokenFragment, if_neg h8]
  · have h9' : T.EndColumnNumber.Invalid = true := by simpa using h9
    rw [if_pos h9', if_neg (fun h => h9 (h.1.2.2.2.2 h8))]

theorem exhaustiveWalk_after {LO : Type} (LineNumber : Nat) (PP : Preprocessor LO)
    (LangOpts : LO) (ts : List Token)
    (h : ∀ b ∈ ts, b.StartLineNumber.Invalid = false → LineNumber < b.StartLine) :
    exhaustiveWalk LineNumber PP LangOpts ts = [] := by
  induction ts with
  | nil => rfl
  | cons b rest ih =>
    rw [exhaustiveWalk, ih (fun u hu => h u (List.mem_cons_of_mem _ hu)),
      if_neg (fun hc => absurd hc.2.1
        (Nat.not_le.2 (h b (List.mem_cons_self _ _) hc.1.2.2.1)))]
    rfl

theorem lexLoop_eq_exhaustiveWalk {LO : Type} (LineNumber : Nat) (PP : Preprocessor LO)
    (LangOpts : LO) (ts : List Token) (hord : StartLinesAscending ts) :
    lexLoop LineNumber PP LangOpts ts [] = exhaustiveWalk LineNumber PP LangOpts ts := by
  induction ts with
  | nil => rfl
  | cons T rest ih =>
    unfold StartLinesAscending at hord
    rw [List.pairwise_cons] at hord
    obtain ⟨hT, hrest⟩ := hord
    have hb := loopBody_eq_fragment LineNumber PP LangOpts T
    by_cases hstop : T.interesting = true ∧ T.EndLineNumber.Invalid = false ∧
        LineNumber ≤ T.EndLine ∧ T.StartLineNumber.Invalid = false ∧ LineNumber < T.StartLine
    · rw [if_pos hstop] at hb
      rw [lexLoop, hb, exhaustiveWalk,
        exhaustiveWalk_after LineNumber PP LangOpts rest
          (fun b hbm hv => Nat.lt_of_lt_of_le hstop.2.2.2.2 (hT b hbm hstop.2.2.2.1 hv)),
        if_neg (fun hc => absurd hc.2.1 (Nat.not_le.2 hstop.2.2.2.2))]
      rfl
    · rw [if_neg hstop] at hb
      rw [lexLoop, hb]
      simp only
      rw [lexLoop_append, ih hrest, exhaustiveWalk]

theorem loopBody_of_reportsInvalid {LO : Type} (LineNumber : Nat) (PP : Preprocessor LO)
    (LangOpts : LO) (T : Token) (V : List StyleRange)
    (h : T.reportsInvalid LineNumber = true) :
    loopBody LineNumber PP LangOpts V T = some V := by
  unfold Token.reportsInvalid at h
  rw [Bool.and_eq_true] at h
  obtain ⟨hi, h⟩ := h
  by_cases h3 : T.EndLineNumber.Invalid = false
  swap
  · exact loopBody_before LineNumber PP LangOpts V T (fun hh => absurd hh h3)
  by_cases h4 : T.EndLine < LineNumber
  · exact loopBody_before LineNumber PP LangOpts V T (fun _ => h4)
  have h1 := interesting_ne_unknown T hi
  have h2 := (interesting_iff T).1 hi
  have h3' : ¬ T.EndLineNumber.Invalid = true := by simp [h3]
  by_cases h5 : T.StartLineNumber.Invalid = true
  · rw [loopBody, if_neg h1, if_neg h2, if_neg h3', if_neg h4, if_pos h5]
  by_cases h6 : T.StartLine > LineNumber
  · simp [h3, h4, h5, h6] at h
  by_cases h7 : T.StartColumnNumber.Invalid = true
  · rw [loopBody, if_neg h1, if_neg h2, if_neg h3', if_neg h4, if_neg h5, if_neg h6, if_pos h7]
  by_cases h8 : T.StartLine = T.EndLine
  · simp [h3, h4, h5, h6, h7, h8] at h
  have h9 : T.EndColumnNumber.Invalid = true := by
    simpa [h3, h4, h5, h6, h7, h8] using h
  rw [loopBody, if_neg h1, if_neg h2, if_neg h3', if_neg h4, if_neg h5, if_neg h6, if_neg h7,
    if_neg h8, if_pos h9]

theorem loopBody_of_anyInvalid {LO : Type} (LineNumber : Nat) (PP : Preprocessor LO)
    (LangOpts : LO) (T : Token) (V : List StyleRange) (hc : T.Coherent)
    (h : T.anyInvalid = true) : loopBody LineNumber PP LangOpts V T = some V := by
  obtain ⟨hs, he⟩ := hc
  by_cases h3 : T.EndLineNumber.Invalid = false
  swap
  · exact loopBody_before LineNumber PP LangOpts V T (fun hh => absurd hh h3)
  by_cases h4 : T.EndLine < LineNumber
  · exact loopBody_before LineNumber PP LangOpts V T (fun _ => h4)
  have h5 : T.StartLineNumber.Invalid = true := by
    unfold Token.anyInvalid at h
    rw [← he, h3, ← hs] at h
    simpa using h
  by_cases h1 : T.Kind = tok.TokenKind.unknown
  · rw [loopBody, if_pos h1]
  by_cases h2 : T.Kind ≠ tok.TokenKind.raw_identifier ∧ T.Kind ≠ tok.TokenKind.comment ∧
      tok.isLiteral T.Kind = false
  · rw [loopBody, if_neg h1, if_pos h2]
  have h3' : ¬ T.EndLineNumber.Invalid = true := by simp [h3]
  rw [loopBody, if_neg h1, if_neg h2, if_neg h3', if_neg h4, if_pos h5]

theorem lexLoop_filter_skipped {LO : Type} (LineNumber : Nat) (PP : Preprocessor LO)
    (LangOpts : LO) (p : Token → Bool) (ts : List Token) :
    (∀ T ∈ ts, p T = true → ∀ V, loopBody LineNumber PP LangOpts V T = some V) →
    ∀ V, lexLoop LineNumber PP LangOpts ts V =
      lexLoop LineNumber PP LangOpts (ts.filter (fun T => !p T)) V := by
  induction ts with
  | nil => intro _ V; rfl
  | cons T rest ih =>
    intro h V
    have ihr := ih (fun U hU => h U (List.mem_cons_of_mem _ hU))
    by_cases hp : p T = true
    · rw [lexLoop, h T (List.mem_cons_self _ _) hp V]
      simp only [List.filter_cons, hp, Bool.not_true, Bool.false_eq_true, if_false]
      exact ihr V
    · have hp' : p T = false := by simpa using hp
      simp only [List.filter_cons, hp', Bool.not_false, if_true]
      rw [lexLoop, lexLoop]
      cases loopBody LineNumber PP LangOpts V T with
      | none => rfl
      | some W => exact ihr W

theorem length_le_of_mem_lineFragments (cs : List Char) :
    ∀ f ∈ lineFragments cs, f.length ≤ cs.length := by
  induction cs with
  | nil => intro f hf; simp [lineFragments] at hf; subst hf; simp
  | cons d cs ih =>
    intro f hf
    rw [lineFragments] at hf
    by_cases hd : isVerticalWhitespace d = true
    · rw [if_pos hd] at hf
      rcases List.mem_cons.1 hf with h | h
      · subst h; simp
      · exact Nat.le_trans (ih f h) (by simp)
    · rw [if_neg hd] at hf
      rcases List.mem_cons.1 hf with h | h
      · subst h
        cases hl : lineFragments cs with
        | nil => exact absurd hl (lineFragments_ne_nil cs)
        | cons g gs =>
          have := ih g (by rw [hl]; exact List.mem_cons_self _ _)
          simp only [List.headD_cons, List.length_cons]
          omega
      · exact Nat.le_trans (ih f (List.mem_of_mem_tail h)) (by simp)

theorem getD_mem_lineFragments (cs : List Char) (k : Nat) (hk : k ≤ lineBreaks cs) :
    (lineFragments cs).getD k [] ∈ lineFragments cs := by
  have hlen : k < (lineFragments cs).length := by
    rw [length_lineFragments]; omega
  rw [List.getD_eq_getElem (lineFragments cs) [] hlen]
  exact List.getElem_mem hlen

theorem sum_length_lineFragments (cs : List Char) :
    ((lineFragments cs).map List.length).sum + lineBreaks cs = cs.length := by
  induction cs with
  | nil => simp [lineFragments, lineBreaks]
  | cons c cs ih =>
    rw [lineFragments]
    unfold lineBreaks at ih ⊢
    by_cases hc : isVerticalWhitespace c = true
    · rw [if_pos hc, List.filter_cons_of_pos hc]
      simp only [List.map_cons, List.length_nil, List.sum_cons, List.length_cons]
      omega
    · rw [if_neg hc, List.filter_cons_of_neg hc]
      cases hl : lineFragments cs with
      | nil => exact absurd hl (lineFragments_ne_nil cs)
      | cons g gs =>
        rw [hl] at ih
        simp only [List.map_cons, List.sum_cons, List.headD_cons, List.tail_cons,
          List.length_cons] at ih ⊢
        omega

theorem sum_range_getD_length (l : List (List Char)) :
    ((List.range l.length).map (fun j => (l.getD j []).length)).sum =
      (l.map List.length).sum := by
  induction l with
  | nil => rfl
  | cons f fs ih =>
    rw [List.length_cons, List.range_succ_eq_map, List.map_cons, List.map_map]
    simp only [List.sum_cons, List.getD_cons_zero, List.map_cons]
    rw [← ih]
    rfl

theorem sum_range_ite_le (g : Nat → Nat) (m : Nat) :
    ∀ d, ((List.range (m + 1 + d)).map (fun j => if j ≤ m then g j else 0)).sum =
      ((List.range (m + 1)).map g).sum := by
  intro d
  induction d with
  | zero =>
    congr 1
    apply List.map_congr_left
    intro j hj
    rw [if_pos (by have := List.mem_range.1 hj; omega)]
  | succ d ih =>
    rw [← Nat.add_assoc, List.range_succ, List.map_append, List.sum_append, ih]
    simp only [List.map_cons, List.map_nil, List.sum_cons, List.sum_nil]
    rw [if_neg (by omega)]
    omega

/-- The length of what the loop body appends on line `StartLine + j` of a styled
multi-line token whose spelling has at most one line-break character per line break and
whose end column is the length of the last run of its spelling: the length of run `j`. -/
theorem spanLengthAt_of_single_breaks {LO : Type} (PP : Preprocessor LO) (LangOpts : LO)
    (T : Token) (c : Colors) (hi : T.interesting = true)
    (hs : tokenStyle PP LangOpts T = some c) (hm : T.MultiLineAt T.StartLine)
    (hec : T.EndCol =
      ((lineFragments T.Spelling.data).getD (lineBreaks T.Spelling.data) []).length)
    (hle : lineBreaks T.Spelling.data ≤ T.EndLine - T.StartLine)
    (hw : T.StartCol + T.Spelling.length < 2 ^ 32) (j : Nat)
    (hj : j ≤ T.EndLine - T.StartLine) :
    spanLengthAt PP LangOpts T (T.StartLine + j) =
      if j ≤ lineBreaks T.Spelling.data then
        ((lineFragments T.Spelling.data).getD j []).length
      else 0 := by
  obtain ⟨h3, h5, h7, h9, hlt, _, _⟩ := hm
  have hmj : T.MultiLineAt (T.StartLine + j) :=
    ⟨h3, h5, h7, h9, hlt, Nat.le_add_right _ _, by omega⟩
  have hb := loopBody_multi_fragments (T.StartLine + j) PP LangOpts T hi hmj []
  have hsub : T.StartLine + j - T.StartLine = j := by omega
  rw [hsub] at hb
  unfold spanLengthAt
  rw [hb]
  by_cases hjm : j ≤ lineBreaks T.Spelling.data
  · have hlen := length_le_of_mem_lineFragments T.Spelling.data _
      (getD_mem_lineFragments T.Spelling.data j hjm)
    have hlen' : ((lineFragments T.Spelling.data).getD j []).length ≤ T.Spelling.length := hlen
    rw [if_pos (by omega), if_pos hjm, emitFragment_of_style PP LangOpts T c hs]
    simp only [List.nil_append, List.map_cons, List.map_nil, List.sum_cons, List.sum_nil,
      Nat.add_zero]
    by_cases h0 : j = 0
    · subst h0
      rw [if_pos rfl, if_pos rfl, u32_of_lt (by omega)]
      omega
    · rw [if_neg h0, if_neg h0]
      by_cases hN : j = T.EndLine - T.StartLine
      · have hmk : lineBreaks T.Spelling.data = j := by omega
        rw [if_pos hN, hec, hmk, Nat.zero_add, u32_of_lt (by omega)]
        omega
      · rw [if_neg hN, Nat.zero_add, u32_of_lt (by omega)]
        omega
  · rw [if_neg (by omega), if_neg hjm]
    rfl

/-- Conservation over the lines of a multi-line token whose spelling has at most one
line-break character per line break: when the end column is the length of the last run
of the spelling, the lengths of the ranges appended for the lines `StartLine .. EndLine`
sum up to the length of the spelling minus its line-break characters. -/
theorem conservation_of_single_breaks {LO : Type} (PP : Preprocessor LO) (LangOpts : LO)
    (T : Token) (c : Colors) (hi : T.interesting = true)
    (hs : tokenStyle PP LangOpts T = some c) (hm : T.MultiLineAt T.StartLine)
    (hec : T.EndCol =
      ((lineFragments T.Spelling.data).getD (lineBreaks T.Spelling.data) []).length)
    (hle : lineBreaks T.Spelling.data ≤ T.EndLine - T.StartLine)
    (hw : T.StartCol + T.Spelling.length < 2 ^ 32) :
    ((List.range (T.EndLine - T.StartLine + 1)).map
        (fun j => spanLengthAt PP LangOpts T (T.StartLine + j))).sum =
      T.Spelling.length - lineBreaks T.Spelling.data := by
  have h1 : (List.range (T.EndLine - T.StartLine + 1)).map
        (fun j => spanLengthAt PP LangOpts T (T.StartLine + j)) =
      (List.range (T.EndLine - T.StartLine + 1)).map
        (fun j => if j ≤ lineBreaks T.Spelling.data then
          ((lineFragments T.Spelling.data).getD j []).length else 0) := by
    apply List.map_congr_left
    intro j hj
    exact spanLengthAt_of_single_breaks PP LangOpts T c hi hs hm hec hle hw j
      (by have := List.mem_range.1 hj; omega)
  have hsplit : T.EndLine - T.StartLine + 1 =
      lineBreaks T.Spelling.data + 1 + (T.EndLine - T.StartLine - lineBreaks T.Spelling.data) := by
    omega
  rw [h1, hsplit, sum_range_ite_le, ← length_lineFragments, sum_range_getD_length]
  have := sum_length_lineFragments T.Spelling.data
  have hl : T.Spelling.length = T.Spelling.data.length := rfl
  omega

/-- The conservation holds on the three lines of the sample block comment: 4 + 4 + 3
characters, 13 with the two line feeds. -/
theorem conservation_of_single_breaks_sample :
    ((List.range (blockCommentToken.EndLine - blockCommentToken.StartLine + 1)).map
        (fun j => spanLengthAt samplePP () blockCommentToken
          (blockCommentToken.StartLine + j))).sum = 11 ∧
      blockCommentToken.Spelling.length - lineBreaks blockCommentToken.Spelling.data = 11 :=
  ⟨(conservation_of_single_breaks samplePP () blockCommentToken CommentColor rfl (by decide)
      (by decide) (by decide) (by decide) (by decide)).trans (by decide), by decide⟩

theorem takeWhile_of_no_lineBreaks (cs : List Char) (h : lineBreaks cs = 0) :
    cs.takeWhile (fun ch => !isVerticalWhitespace ch) = cs := by
  induction cs with
  | nil => rfl
  | cons c cs ih =>
    unfold lineBreaks at h ih
    by_cases hc : isVerticalWhitespace c = true
    · rw [List.filter_cons_of_pos hc] at h
      simp at h
    · rw [List.filter_cons_of_neg hc] at h
      have hc' : isVerticalWhitespace c = false := by simpa using hc
      simp only [List.takeWhile, hc', Bool.not_false]
      rw [ih h]

/-- Classification by kind: a token of a literal kind is given the literal colour and a
comment token the comment colour.  `appendStyle` appends exactly one range of that colour
at every position, the loop appends exactly that range for such a token lying on the
target line alone, and whatever the loop body appends for such a token is one range of
that colour.  A token that is neither a raw identifier, a comment nor a literal is
dropped by the loop body before `appendStyle` is reached. -/
theorem classification_by_kind {LO : Type} (PP : Preprocessor LO) (LangOpts : LO) (T : Token) :
    (tok.isLiteral T.Kind = true →
        (∀ (Vec : List StyleRange) (Start Length : Nat),
          appendStyle PP LangOpts Vec T Start Length =
            Vec ++ [⟨Start, u32 (Start + Length), LiteralColor⟩]) ∧
        (∀ (LineNumber : Nat) (V : List StyleRange) (rest : List Token),
          T.SingleLineAt LineNumber →
            lexLoop LineNumber PP LangOpts (T :: rest) V =
              V ++ (⟨T.StartCol, u32 (T.StartCol + T.Length), LiteralColor⟩ ::
                lexLoop LineNumber PP LangOpts rest [])) ∧
        (∀ (LineNumber : Nat) (V : List StyleRange),
          loopBody LineNumber PP LangOpts V T = none ∨
            loopBody LineNumber PP LangOpts V T = some V ∨
            ∃ Start End,
              loopBody LineNumber PP LangOpts V T =
                some (V ++ [⟨Start, End, LiteralColor⟩]))) ∧
      (T.Kind = tok.TokenKind.comment →
        (∀ (Vec : List StyleRange) (Start Length : Nat),
          appendStyle PP LangOpts Vec T Start Length =
            Vec ++ [⟨Start, u32 (Start + Length), CommentColor⟩]) ∧
        (∀ (LineNumber : Nat) (V : List StyleRange) (rest : List Token),
          T.SingleLineAt LineNumber →
            lexLoop LineNumber PP LangOpts (T :: rest) V =
              V ++ (⟨T.StartCol, u32 (T.StartCol + T.Length), CommentColor⟩ ::
                lexLoop LineNumber PP LangOpts rest [])) ∧
        (∀ (LineNumber : Nat) (V : List StyleRange),
          loopBody LineNumber PP LangOpts V T = none ∨
            loopBody LineNumber PP LangOpts V T = some V ∨
            ∃ Start End,
              loopBody LineNumber PP LangOpts V T =
                some (V ++ [⟨Start, End, CommentColor⟩]))) ∧
      (T.Kind ≠ tok.TokenKind.raw_identifier → T.Kind ≠ tok.TokenKind.comment →
        tok.isLiteral T.Kind = false →
        ∀ (LineNumber : Nat) (V : List StyleRange) (rest : List Token),
          loopBody LineNumber PP LangOpts V T = some V ∧
            lexLoop LineNumber PP LangOpts (T :: rest) V =
              lexLoop LineNumber PP LangOpts rest V) := by
  refine ⟨fun hl => ⟨fun Vec Start Length =>
      appendStyle_literal PP LangOpts Vec T Start Length hl, ?_,
      fun LineNumber V => loopBody_of_style LineNumber PP LangOpts T LiteralColor
        (tokenStyle_literal PP LangOpts T hl) V⟩,
    fun hc => ⟨fun Vec Start Length =>
      appendStyle_comment PP LangOpts Vec T Start Length hc, ?_,
      fun LineNumber V => loopBody_of_style LineNumber PP LangOpts T CommentColor
        (tokenStyle_comment PP LangOpts T hc) V⟩, ?_⟩
  · intro LineNumber V rest hat
    have hb := loopBody_single LineNumber PP LangOpts V T (interesting_of_literal T hl) hat
    rw [appendStyle_literal PP LangOpts V T _ _ hl] at hb
    exact lexLoop_cons_of_some LineNumber PP LangOpts T rest V _ hb
  · intro LineNumber V rest hat
    have hb := loopBody_single LineNumber PP LangOpts V T (interesting_of_comment T hc) hat
    rw [appendStyle_comment PP LangOpts V T _ _ hc] at hb
    exact lexLoop_cons_of_some LineNumber PP LangOpts T rest V _ hb
  · intro h1 h2 h3 LineNumber V rest
    have hn : T.interesting = false := by
      simp [Token.interesting, h1, h2, h3]
    have hb := loopBody_not_interesting LineNumber PP LangOpts V T hn
    refine ⟨hb, ?_⟩
    rw [lexLoop, hb]

theorem meets_bounds (T : Token) (LineNumber : Nat) (h : T.meets LineNumber = true) :
    T.StartLine ≤ LineNumber ∧ LineNumber ≤ T.EndLine := by
  simp only [Token.meets, Bool.and_eq_true, decide_eq_true_eq] at h
  exact ⟨h.1.2, h.2⟩

/-- C1: when the lexer delivers its tokens in ascending source order with pairwise
non-overlapping extents, the ranges returned by `highlightLine` for any target line are
sorted by start and do not overlap: of two ranges the earlier one ends at or before the
start of the later one, in particular `spans[i].End <= spans[i+1].Start` for every
adjacent pair. -/
theorem highlightLine_sorted_non_overlapping {LO : Type} (LineNumber : Nat)
    (PP : Option (Preprocessor LO)) (LangOpts : LO) (Buff : MemoryBuffer) (L : Lexer)
    (LineStart : Nat) (hord : ∀ Offset, SourceOrdered (L.tokensFrom Offset)) :
    (highlightLine LineNumber PP LangOpts Buff L LineStart).Pairwise
        (fun s t => s.Start ≤ t.Start ∧ s.End ≤ t.Start) ∧
      ∀ (i : Nat) (h : i + 1 < (highlightLine LineNumber PP LangOpts Buff L LineStart).length),
        ((highlightLine LineNumber PP LangOpts Buff L LineStart).get
            ⟨i, Nat.lt_of_succ_lt h⟩).End ≤
          ((highlightLine LineNumber PP LangOpts Buff L LineStart).get ⟨i + 1, h⟩).Start := by
  have hp : (highlightLine LineNumber PP LangOpts Buff L LineStart).Pairwise
      (fun s t => s.Start ≤ t.Start ∧ s.End ≤ t.Start) := by
    rcases highlightLine_cases LineNumber PP LangOpts Buff L LineStart with h | ⟨P, Offset, h⟩
    · rw [h]; exact List.Pairwise.nil
    · rw [h]; exact lexLoop_sorted LineNumber P LangOpts _ (hord Offset)
  refine ⟨hp, ?_⟩
  intro i h
  exact (List.pairwise_iff_get.1 hp ⟨i, Nat.lt_of_succ_lt h⟩ ⟨i + 1, h⟩
    (by simp [Fin.lt_def])).2

/-- Witness of C1: the sample stream is in source order; on line 3 the end of the block
comment is followed by `return`, on line 0 three ranges follow one another. -/
theorem highlightLine_sorted_non_overlapping_witness :
    SourceOrdered sampleStream ∧
      highlightLine 3 (some samplePP) () sampleBuffer (constLexer sampleStream) 100 =
        [⟨0, 3, CommentColor⟩, ⟨4, 10, KeywordColor⟩] ∧
      highlightLine 0 (some samplePP) () sampleBuffer (constLexer sampleStream) 100 =
        [⟨0, 3, KeywordColor⟩, ⟨4, 6, LiteralColor⟩, ⟨7, 12, CommentColor⟩] ∧
      (highlightLine 3 (some samplePP) () sampleBuffer (constLexer sampleStream) 100).Pairwise
        (fun s t => s.Start ≤ t.Start ∧ s.End ≤ t.Start) :=
  ⟨by decide, by decide, by decide,
    (highlightLine_sorted_non_overlapping 3 (some samplePP) () sampleBuffer
      (constLexer sampleStream) 100 (fun _ => (by decide : SourceOrdered sampleStream))).1⟩

/-- C3: `highlightLine` returns the empty sequence, whatever the lexer would deliver, when
no preprocessor is supplied (`PP` is null) and when the identifier table has an external
identifier lookup installed; the function is total, so no error is signalled. -/
theorem highlightLine_safe_empty {LO : Type} (LineNumber : Nat) (LangOpts : LO)
    (Buff : MemoryBuffer) (L : Lexer) (LineStart : Nat) :
    highlightLine LineNumber (none : Option (Preprocessor LO)) LangOpts Buff L LineStart = [] ∧
      ∀ PP : Preprocessor LO, PP.hasExternalIdentifierLookup = true →
        highlightLine LineNumber (some PP) LangOpts Buff L LineStart = [] := by
  refine ⟨rfl, ?_⟩
  intro PP h
  simp [highlightLine, h]

/-- Witness of C3: an external lookup silences a lexer that would deliver `int`. -/
theorem highlightLine_safe_empty_witness :
    externalPP.hasExternalIdentifierLookup = true ∧
      highlightLine 0 (some externalPP) () sampleBuffer (constLexer [intToken]) 100 = [] ∧
      highlightLine 0 (some samplePP) () sampleBuffer (constLexer [intToken]) 100 ≠ [] :=
  ⟨rfl, (highlightLine_safe_empty 0 () sampleBuffer (constLexer [intToken]) 100).2
    externalPP rfl, by decide⟩

/-- C4: a raw identifier spelled exactly `true`, `false` or `nullptr` is classified as a
literal for every language configuration and keyword table: `appendStyle` appends exactly
one range with the literal colour (which is not the keyword colour) at every position, and
when such a token lies on the target line the loop appends exactly that one range for it. -/
theorem reserved_identifier_is_literal {LO : Type} (PP : Preprocessor LO) (LangOpts : LO)
    (T : Token) (hk : T.Kind = tok.TokenKind.raw_identifier)
    (hs : T.RawIdentifier = "true" ∨ T.RawIdentifier = "false" ∨ T.RawIdentifier = "nullptr") :
    (∀ (Vec : List StyleRange) (Start Length : Nat),
        appendStyle PP LangOpts Vec T Start Length =
          Vec ++ [⟨Start, u32 (Start + Length), LiteralColor⟩]) ∧
      (∀ (LineNumber : Nat) (V : List StyleRange) (rest : List Token),
        T.SingleLineAt LineNumber →
          lexLoop LineNumber PP LangOpts (T :: rest) V =
            V ++ (⟨T.StartCol, u32 (T.StartCol + T.Length), LiteralColor⟩ ::
              lexLoop LineNumber PP LangOpts rest [])) ∧
      LiteralColor ≠ KeywordColor := by
  refine ⟨fun Vec Start Length => appendStyle_reserved_literal PP LangOpts Vec T Start Length
    hk hs, ?_, by decide⟩
  intro LineNumber V rest hl
  have hb := loopBody_single LineNumber PP LangOpts V T (interesting_of_raw_identifier T hk) hl
  rw [appendStyle_reserved_literal PP LangOpts V T _ _ hk hs] at hb
  exact lexLoop_cons_of_some LineNumber PP LangOpts T rest V _ hb

/-- Witness of C4: `true` at columns 8..12, with a keyword table that lists `true`. -/
theorem reserved_identifier_is_literal_witness :
    samplePP.isKeyword "true" () = true ∧ trueToken.SingleLineAt 0 ∧
      highlightLine 0 (some samplePP) () sampleBuffer (constLexer [trueToken]) 100 =
        [⟨8, 12, LiteralColor⟩] :=
  ⟨by decide, by decide,
    ((reserved_identifier_is_literal samplePP () trueToken rfl (Or.inl rfl)).2.1 0 [] []
      (by decide)).trans (by decide)⟩

/-- C5: a raw identifier spelled none of `true`, `false`, `nullptr` gets a keyword range
exactly when the keyword table recognises its spelling for the language configuration,
and no range otherwise: so does `appendStyle` at every position, so does the loop for such
a token on the target line, and a line holding only the non-keyword identifier `foobar`
yields the empty sequence. -/
theorem identifier_keyword_or_nothing {LO : Type} (PP : Preprocessor LO) (LangOpts : LO)
    (T : Token) (hk : T.Kind = tok.TokenKind.raw_identifier)
    (h1 : T.RawIdentifier ≠ "true") (h2 : T.RawIdentifier ≠ "false")
    (h3 : T.RawIdentifier ≠ "nullptr") :
    (∀ (Vec : List StyleRange) (Start Length : Nat),
        appendStyle PP LangOpts Vec T Start Length =
          if PP.isKeyword T.RawIdentifier LangOpts = true then
            Vec ++ [⟨Start, u32 (Start + Length), KeywordColor⟩]
          else Vec) ∧
      (∀ (LineNumber : Nat) (V : List StyleRange) (rest : List Token),
        T.SingleLineAt LineNumber →
          lexLoop LineNumber PP LangOpts (T :: rest) V =
            if PP.isKeyword T.RawIdentifier LangOpts = true then
              V ++ (⟨T.StartCol, u32 (T.StartCol + T.Length), KeywordColor⟩ ::
                lexLoop LineNumber PP LangOpts rest [])
            else V ++ lexLoop LineNumber PP LangOpts rest []) ∧
      (PP.hasExternalIdentifierLookup = false → PP.isKeyword "foobar" LangOpts = false →
        ∀ (Buff : MemoryBuffer) (LineStart : Nat),
          highlightLine 0 (some PP) LangOpts Buff (constLexer [foobarToken, eofToken])
            LineStart = []) := by
  have hs : ¬(T.RawIdentifier = "true" ∨ T.RawIdentifier = "false" ∨
      T.RawIdentifier = "nullptr") := by
    rintro (h | h | h)
    · exact h1 h
    · exact h2 h
    · exact h3 h
  refine ⟨fun Vec Start Length => appendStyle_identifier PP LangOpts Vec T Start Length hk hs,
    ?_, ?_⟩
  · intro LineNumber V rest hl
    have hb := loopBody_single LineNumber PP LangOpts V T (interesting_of_raw_identifier T hk)
      hl
    rw [appendStyle_identifier PP LangOpts V T _ _ hk hs] at hb
    by_cases hkw : PP.isKeyword T.RawIdentifier LangOpts = true
    · rw [if_pos hkw] at hb ⊢
      exact lexLoop_cons_of_some LineNumber PP LangOpts T rest V _ hb
    · rw [if_neg hkw] at hb ⊢
      have hb' : loopBody LineNumber PP LangOpts V T = some (V ++ []) := by simpa using hb
      simpa using lexLoop_cons_of_some LineNumber PP LangOpts T rest V [] hb'
  · intro hx hf Buff LineStart
    have hfoo : appendStyle PP LangOpts [] foobarToken foobarToken.StartCol
        foobarToken.Length = [] := by
      rw [appendStyle_identifier PP LangOpts [] foobarToken _ _ rfl (by decide)]
      have : foobarToken.RawIdentifier = "foobar" := rfl
      rw [this, hf]
      simp
    have hb1 : loopBody 0 PP LangOpts [] foobarToken = some [] := by
      rw [loopBody_single 0 PP LangOpts [] foobarToken rfl (by decide), hfoo]
    have hb2 : loopBody 0 PP LangOpts [] eofToken = some [] :=
      loopBody_not_interesting 0 PP LangOpts [] eofToken rfl
    simp [highlightLine, hx, constLexer, lexLoop, hb1, hb2]

/-- Witness of C5: `int` is a keyword of the sample table, and `foobar` is not. -/
theorem identifier_keyword_or_nothing_witness :
    (intToken.Kind = tok.TokenKind.raw_identifier ∧ intToken.RawIdentifier ≠ "true" ∧
        intToken.RawIdentifier ≠ "false" ∧ intToken.RawIdentifier ≠ "nullptr") ∧
      intToken.SingleLineAt 0 ∧
      lexLoop 0 samplePP () [intToken] [] = [⟨0, 3, KeywordColor⟩] ∧
      highlightLine 0 (some samplePP) () sampleBuffer (constLexer [foobarToken, eofToken])
        100 = [] :=
  ⟨by decide, by decide,
    ((identifier_keyword_or_nothing samplePP () intToken rfl (by decide) (by decide)
      (by decide)).2.1 0 [] [] (by decide)).trans (by decide),
    (identifier_keyword_or_nothing samplePP () intToken rfl (by decide) (by decide)
      (by decide)).2.2 rfl (by decide) sampleBuffer 100⟩

/-- C6, the code at a literal and at a comment written over two lines with a line
continuation: both tokens are of a kind that gets a range and both meet line 1, on which
they end, yet `highlightLine` returns nothing for line 1.  The spelling, cleaned of the
continuation, holds no line break, so the splitting loop finds the first line alone. -/
theorem continued_token_gets_no_span_evaluation :
    (tok.isLiteral continuedStringToken.Kind = true ∧ continuedStringToken.MultiLineAt 1 ∧
        continuedStringToken.StartLine = 0 ∧ continuedStringToken.EndLine = 1 ∧
        lineBreaks continuedStringToken.Spelling.data = 0 ∧
        tokenStyle samplePP () continuedStringToken = some LiteralColor ∧
        highlightLine 1 (some samplePP) () sampleBuffer (constLexer [continuedStringToken])
          100 = []) ∧
      (continuedCommentToken.Kind = tok.TokenKind.comment ∧
        continuedCommentToken.MultiLineAt 1 ∧
        lineBreaks continuedCommentToken.Spelling.data = 0 ∧
        tokenStyle samplePP () continuedCommentToken = some CommentColor ∧
        highlightLine 1 (some samplePP) () sampleBuffer (constLexer [continuedCommentToken])
          100 = []) := by
  decide

/-- C8: when the save point is null, lies before `BufferStart`, or lies at or past
`BufferEnd`, lexing starts at offset `0`; when `BufferStart <= Save < BufferEnd` it starts
at offset `Save - BufferStart`.  In both cases `highlightLine` is the result of the loop
over the tokens lexed from that offset: nothing is reported to the caller.  (The
assertions sit inside the branch of the second case; they hold there when the save point
is at or before the line start, as the preprocessor promises.) -/
theorem seek_offset_of_save_point {LO : Type} (LineNumber : Nat) (PP : Preprocessor LO)
    (LangOpts : LO) (Buff : MemoryBuffer) (L : Lexer) (LineStart : Nat)
    (hx : PP.hasExternalIdentifierLookup = false) :
    (PP.getSaveFor LineStart = 0 ∨ PP.getSaveFor LineStart < Buff.BufferStart ∨
          Buff.BufferEnd ≤ PP.getSaveFor LineStart →
        seekOffset Buff (PP.getSaveFor LineStart) = 0 ∧
          highlightLine LineNumber (some PP) LangOpts Buff L LineStart =
            lexLoop LineNumber PP LangOpts (L.tokensFrom 0) []) ∧
      (Buff.BufferStart ≤ PP.getSaveFor LineStart ∧ PP.getSaveFor LineStart < Buff.BufferEnd →
        seekOffset Buff (PP.getSaveFor LineStart) = PP.getSaveFor LineStart - Buff.BufferStart ∧
          highlightLine LineNumber (some PP) LangOpts Buff L LineStart =
            lexLoop LineNumber PP LangOpts
              (L.tokensFrom (PP.getSaveFor LineStart - Buff.BufferStart)) [] ∧
          (PP.getSaveFor LineStart ≤ LineStart →
            seekAssertions Buff LineStart (PP.getSaveFor LineStart) = true)) := by
  have hh : highlightLine LineNumber (some PP) LangOpts Buff L LineStart =
      lexLoop LineNumber PP LangOpts
        (L.tokensFrom (seekOffset Buff (PP.getSaveFor LineStart))) [] := by
    simp [highlightLine, hx]
  constructor
  · intro h
    have h0 : seekOffset Buff (PP.getSaveFor LineStart) = 0 := by
      unfold seekOffset
      split_ifs with hin
      · rcases h with h | h | h
        · rw [h]; exact Nat.zero_sub _
        · exact absurd hin.1 (Nat.not_le.2 h)
        · exact absurd hin.2 (Nat.not_lt.2 h)
      · rfl
    exact ⟨h0, by rw [hh, h0]⟩
  · intro h
    have h1 : seekOffset Buff (PP.getSaveFor LineStart) =
        PP.getSaveFor LineStart - Buff.BufferStart := by
      unfold seekOffset
      rw [if_pos h]
    exact ⟨h1, by rw [hh, h1], fun hl => by simp [seekAssertions, h.1, le_of_lt h.2, hl]⟩

/-- Witness of C8: no save point (null) for the buffer `[100, 200)`, the save point `150`
past the end of the buffer `[100, 140)`, and the save point `150` inside `[100, 200)`. -/
theorem seek_offset_of_save_point_witness :
    (samplePP.hasExternalIdentifierLookup = false ∧ samplePP.getSaveFor 120 = 0 ∧
        highlightLine 0 (some samplePP) () sampleBuffer offsetLexer 120 =
          [⟨0, 3, KeywordColor⟩]) ∧
      ((⟨100, 140⟩ : MemoryBuffer).BufferEnd ≤ savePP.getSaveFor 120 ∧
        highlightLine 0 (some savePP) () ⟨100, 140⟩ offsetLexer 120 =
          [⟨0, 3, KeywordColor⟩]) ∧
      ((sampleBuffer.BufferStart ≤ savePP.getSaveFor 160 ∧
          savePP.getSaveFor 160 < sampleBuffer.BufferEnd) ∧
        highlightLine 0 (some savePP) () sampleBuffer offsetLexer 160 =
          [⟨8, 12, LiteralColor⟩] ∧
        savePP.getSaveFor 160 ≤ 160 ∧
        seekAssertions sampleBuffer 160 (savePP.getSaveFor 160) = true) :=
  ⟨⟨rfl, rfl,
      (((seek_offset_of_save_point 0 samplePP () sampleBuffer offsetLexer 120 rfl).1
        (Or.inl rfl)).2).trans (by decide)⟩,
    ⟨by decide,
      (((seek_offset_of_save_point 0 savePP () ⟨100, 140⟩ offsetLexer 120 rfl).1
        (Or.inr (Or.inr (by decide)))).2).trans (by decide)⟩,
    ⟨by decide,
      (((seek_offset_of_save_point 0 savePP () sampleBuffer offsetLexer 160 rfl).2
        (by decide)).2.1).trans (by decide),
      by decide,
      ((seek_offset_of_save_point 0 savePP () sampleBuffer offsetLexer 160 rfl).2
        (by decide)).2.2 (by decide)⟩⟩

/-- C9: for a styled token (one of an interesting kind to which `appendStyle` gives a
colour `c`) whose start line and end line both are the target line, the loop appends
exactly one range, from the 0-based start column to the start column plus the length of
the token (the sum being below `2^32`, as for every token of a real buffer). -/
theorem single_line_token_span {LO : Type} (LineNumber : Nat) (PP : Preprocessor LO)
    (LangOpts : LO) (T : Token) (c : Colors) (hi : T.interesting = true)
    (hs : tokenStyle PP LangOpts T = some c) (hl : T.SingleLineAt LineNumber)
    (hw : T.StartCol + T.Length < 2 ^ 32) (V : List StyleRange) (rest : List Token) :
    loopBody LineNumber PP LangOpts V T =
        some (V ++ [⟨T.StartCol, T.StartCol + T.Length, c⟩]) ∧
      lexLoop LineNumber PP LangOpts (T :: rest) V =
        V ++ (⟨T.StartCol, T.StartCol + T.Length, c⟩ ::
          lexLoop LineNumber PP LangOpts rest []) := by
  have hb := loopBody_single LineNumber PP LangOpts V T hi hl
  rw [appendStyle_of_style PP LangOpts V T _ _ c hs, u32_of_lt hw] at hb
  exact ⟨hb, lexLoop_cons_of_some LineNumber PP LangOpts T rest V _ hb⟩

/-- Witness of C9: the keyword `int` at columns 0..3 of line 0, followed by `true`. -/
theorem single_line_token_span_witness :
    (intToken.interesting = true ∧ tokenStyle samplePP () intToken = some KeywordColor ∧
        intToken.SingleLineAt 0 ∧ intToken.StartCol + intToken.Length < 2 ^ 32) ∧
      lexLoop 0 samplePP () [intToken, trueToken] [] =
        [⟨0, 3, KeywordColor⟩, ⟨8, 12, LiteralColor⟩] :=
  ⟨⟨rfl, by decide, by decide, by decide⟩,
    ((single_line_token_span 0 samplePP () intToken KeywordColor rfl (by decide) (by decide)
      (by decide) [] [trueToken]).2).trans (by decide)⟩

/-- C10: for a styled token spanning more than one line whose spelling consists of one
fragment per line separated by single line feeds, and a target line among its lines, the
loop appends exactly one range: `[StartCol, StartCol + length of the first fragment)` on
the first line, `[0, EndCol)` on the last line, and `[0, length of the fragment with
relative index LineNumber - StartLine)` in between.  In particular, for a line inside a
block comment (tokens before end earlier, tokens after start later) `highlightLine`
returns the single range `(0, line length, Comment)`. -/
theorem multi_line_token_span {LO : Type} (LineNumber : Nat) (PP : Preprocessor LO)
    (LangOpts : LO) (T : Token) (c : Colors) (frags : List (List Char))
    (hi : T.interesting = true) (hs : tokenStyle PP LangOpts T = some c)
    (hm : T.MultiLineAt LineNumber) (hf : T.SplitsInto frags)
    (hw : T.StartCol + T.Spelling.length < 2 ^ 32) :
    (∀ (V : List StyleRange) (rest : List Token),
        lexLoop LineNumber PP LangOpts (T :: rest) V =
          V ++ (fragmentSpan T frags LineNumber c :: lexLoop LineNumber PP LangOpts rest [])) ∧
      (T.Kind = tok.TokenKind.comment → T.StartLine < LineNumber → LineNumber < T.EndLine →
        PP.hasExternalIdentifierLookup = false →
        ∀ (Buff : MemoryBuffer) (L : Lexer) (LineStart : Nat) (pre post : List Token),
          L.tokensFrom (seekOffset Buff (PP.getSaveFor LineStart)) = pre ++ T :: post →
          (∀ t ∈ pre, t.EndLineNumber.Invalid = false → t.EndLine < LineNumber) →
          (∀ t ∈ post, t.StartLineNumber.Invalid = false → LineNumber < t.StartLine) →
          highlightLine LineNumber (some PP) LangOpts Buff L LineStart =
            [⟨0, (frags.getD (LineNumber - T.StartLine) []).length, CommentColor⟩]) := by
  have hloop : ∀ (V : List StyleRange) (rest : List Token),
      lexLoop LineNumber PP LangOpts (T :: rest) V =
        V ++ (fragmentSpan T frags LineNumber c :: lexLoop LineNumber PP LangOpts rest []) := by
    intro V rest
    have hb := loopBody_multi LineNumber PP LangOpts V T hi hm.1 hm.2.2.2.2.2.2 hm.2.1
      hm.2.2.2.2.2.1 hm.2.2.1 (Nat.ne_of_lt hm.2.2.2.2.1) hm.2.2.2.1
    rw [splitLoop_of_splitsInto LineNumber PP LangOpts T c frags hs hm hf hw V] at hb
    exact lexLoop_cons_of_some LineNumber PP LangOpts T rest V _ hb
  refine ⟨hloop, ?_⟩
  intro hc h1 h2 hx Buff L LineStart pre post hts hpre hpost
  have hcol : c = CommentColor := by
    have := appendStyle_comment PP LangOpts [] T 0 0 hc
    unfold tokenStyle at hs
    rw [this] at hs
    simpa using hs.symm
  have hh : highlightLine LineNumber (some PP) LangOpts Buff L LineStart =
      lexLoop LineNumber PP LangOpts
        (L.tokensFrom (seekOffset Buff (PP.getSaveFor LineStart))) [] := by
    simp [highlightLine, hx]
  rw [hh, hts, lexLoop_before LineNumber PP LangOpts pre hpre, hloop,
    lexLoop_after LineNumber PP LangOpts post hpost, hcol]
  unfold fragmentSpan
  rw [if_neg (by omega), if_neg (by omega)]
  rfl

/-- Witness of C10: the three lines of a block comment, and the line in its middle as
seen by `highlightLine` between `int` on line 0 and `return` on line 3. -/
theorem multi_line_token_span_witness :
    (blockCommentToken.interesting = true ∧
        tokenStyle samplePP () blockCommentToken = some CommentColor ∧
        blockCommentToken.MultiLineAt 1 ∧ blockCommentToken.MultiLineAt 2 ∧
        blockCommentToken.MultiLineAt 3 ∧ blockCommentToken.SplitsInto blockCommentLines ∧
        blockCommentToken.StartCol + blockCommentToken.Spelling.length < 2 ^ 32) ∧
      lexLoop 1 samplePP () [blockCommentToken] [] = [⟨4, 8, CommentColor⟩] ∧
      lexLoop 2 samplePP () [blockCommentToken] [] = [⟨0, 4, CommentColor⟩] ∧
      lexLoop 3 samplePP () [blockCommentToken] [] = [⟨0, 3, CommentColor⟩] ∧
      highlightLine 2 (some samplePP) () sampleBuffer
        (constLexer [intToken, blockCommentToken, returnToken]) 100 = [⟨0, 4, CommentColor⟩] :=
  ⟨⟨rfl, by decide, by decide, by decide, by decide, by decide, by decide⟩,
    ((multi_line_token_span 1 samplePP () blockCommentToken CommentColor blockCommentLines rfl
      (by decide) (by decide) (by decide) (by decide)).1 [] []).trans (by decide),
    ((multi_line_token_span 2 samplePP () blockCommentToken CommentColor blockCommentLines rfl
      (by decide) (by decide) (by decide) (by decide)).1 [] []).trans (by decide),
    ((multi_line_token_span 3 samplePP () blockCommentToken CommentColor blockCommentLines rfl
      (by decide) (by decide) (by decide) (by decide)).1 [] []).trans (by decide),
    ((multi_line_token_span 2 samplePP () blockCommentToken CommentColor blockCommentLines rfl
      (by decide) (by decide) (by decide) (by decide)).2 rfl (by decide) (by decide) rfl
      sampleBuffer (constLexer [intToken, blockCommentToken, returnToken]) 100 [intToken]
      [returnToken] rfl (by decide) (by decide)).trans (by decide)⟩

/-- C11, the code at a CR LF comment: for the comment over the lines `/*`,
`long line here`, `x`, `*/` (end column 2, the length of its last fragment) the lengths
of the ranges returned for the lines 0, 1, 2, 3 are 2, 0, 14, 2 and sum up to 18, while
the spelling has 25 characters of which 6 are line-break characters: 19 are not. -/
theorem crlf_conservation_evaluation :
    (crlfCommentToken.MultiLineAt 0 ∧ crlfCommentToken.MultiLineAt 3 ∧
        tokenStyle samplePP () crlfCommentToken = some CommentColor) ∧
      ((List.range 4).map (fun LineNumber =>
        ((highlightLine LineNumber (some samplePP) () sampleBuffer
          (constLexer [crlfCommentToken]) 100).map (fun s => s.End - s.Start)).sum)) =
        [2, 0, 14, 2] ∧
      [2, 0, 14, 2].sum = 18 ∧
      crlfCommentToken.EndCol = "*/".length ∧
      crlfCommentToken.Spelling.length - lineBreaks crlfCommentToken.Spelling.data = 19 := by
  decide

/-- C12, the code at a string literal written over two lines with a line continuation,
`"abc\` on line 0 and `def"` on line 1: the token lies inside the buffer, line 0 holds
five characters, and the range returned for line 0 is `(0, 8)`, the length of the
spelling cleaned of the continuation.  And at the block comment of a buffer with CR LF
line ends: the range returned for line 2, whose text is `x`, is `(0, 14)`. -/
theorem span_end_beyond_line_evaluation :
    (continuedStringToken.InsideBuffer continuedStringLines ∧
        "\"abc\\".length = continuedStringLines 0 ∧
        highlightLine 0 (some samplePP) () sampleBuffer (constLexer [continuedStringToken])
          100 = [⟨0, 8, LiteralColor⟩] ∧
        ¬ (∀ s ∈ highlightLine 0 (some samplePP) () sampleBuffer
            (constLexer [continuedStringToken]) 100, s.End ≤ continuedStringLines 0)) ∧
      (crlfCommentToken.InsideBuffer crlfCommentLines ∧ "x".length = crlfCommentLines 2 ∧
        highlightLine 2 (some samplePP) () sampleBuffer (constLexer [crlfCommentToken])
          100 = [⟨0, 14, CommentColor⟩] ∧
        ¬ (∀ s ∈ highlightLine 2 (some samplePP) () sampleBuffer
            (constLexer [crlfCommentToken]) 100, s.End ≤ crlfCommentLines 2)) := by
  decide

/-- C14: a token for which a position query is reported invalid is passed over and
nothing else changes.  The loop body goes on with the vector as it was; the loop returns
for every stream what it returns for the stream without these tokens, and so does
`highlightLine`.  When the source manager answers line and column of a location alike,
the same holds with every token removed that has an invalid query at all.  The functions
are total: no error is signalled. -/
theorem invalid_tokens_are_skipped {LO : Type} (LineNumber : Nat)
    (PP : Option (Preprocessor LO)) (P : Preprocessor LO) (LangOpts : LO) :
    (∀ (T : Token) (V : List StyleRange), T.reportsInvalid LineNumber = true →
        loopBody LineNumber P LangOpts V T = some V) ∧
      (∀ (ts : List Token) (V : List StyleRange),
        lexLoop LineNumber P LangOpts ts V =
          lexLoop LineNumber P LangOpts
            (ts.filter (fun T => !T.reportsInvalid LineNumber)) V) ∧
      (∀ (Buff : MemoryBuffer) (L : Lexer) (LineStart : Nat),
        highlightLine LineNumber PP LangOpts Buff L LineStart =
          highlightLine LineNumber PP LangOpts Buff
            (L.without (fun T => T.reportsInvalid LineNumber)) LineStart) ∧
      (∀ (Buff : MemoryBuffer) (L : Lexer) (LineStart : Nat),
        (∀ Offset, ∀ T ∈ L.tokensFrom Offset, T.Coherent) →
        highlightLine LineNumber PP LangOpts Buff L LineStart =
          highlightLine LineNumber PP LangOpts Buff (L.without Token.anyInvalid)
            LineStart) := by
  have hfilter : ∀ (Q : Preprocessor LO) (ts : List Token) (V : List StyleRange),
      lexLoop LineNumber Q LangOpts ts V =
        lexLoop LineNumber Q LangOpts
          (ts.filter (fun T => !T.reportsInvalid LineNumber)) V := fun Q ts V =>
    lexLoop_filter_skipped LineNumber Q LangOpts (fun T => T.reportsInvalid LineNumber) ts
      (fun T _ hT W => loopBody_of_reportsInvalid LineNumber Q LangOpts T W hT) V
  refine ⟨fun T V h => loopBody_of_reportsInvalid LineNumber P LangOpts T V h,
    hfilter P, ?_, ?_⟩
  · intro Buff L LineStart
    cases PP with
    | none => rfl
    | some Q =>
      by_cases hx : Q.hasExternalIdentifierLookup = true
      · simp [highlightLine, hx]
      · simp only [highlightLine, hx, Bool.false_eq_true, if_false, Lexer.without]
        exact hfilter Q _ []
  · intro Buff L LineStart hco
    cases PP with
    | none => rfl
    | some Q =>
      by_cases hx : Q.hasExternalIdentifierLookup = true
      · simp [highlightLine, hx]
      · simp only [highlightLine, hx, Bool.false_eq_true, if_false, Lexer.without]
        exact lexLoop_filter_skipped LineNumber Q LangOpts Token.anyInvalid _
          (fun T hT hi W => loopBody_of_anyInvalid LineNumber Q LangOpts T W (hco _ T hT) hi) []

/-- Witness of C14: an identifier with unknown locations between `int` and `true`. -/
theorem invalid_tokens_are_skipped_witness :
    (invalidToken.reportsInvalid 0 = true ∧
        loopBody 0 samplePP () [⟨0, 3, KeywordColor⟩] invalidToken =
          some [⟨0, 3, KeywordColor⟩]) ∧
      ((∀ Offset, ∀ T ∈ (constLexer [intToken, invalidToken, trueToken]).tokensFrom Offset,
          T.Coherent) ∧
        highlightLine 0 (some samplePP) () sampleBuffer
            (constLexer [intToken, invalidToken, trueToken]) 100 =
          highlightLine 0 (some samplePP) () sampleBuffer
            ((constLexer [intToken, invalidToken, trueToken]).without Token.anyInvalid) 100 ∧
        ((constLexer [intToken, invalidToken, trueToken]).without Token.anyInvalid).tokensFrom 0 =
          [intToken, trueToken] ∧
        highlightLine 0 (some samplePP) () sampleBuffer
            (constLexer [intToken, invalidToken, trueToken]) 100 =
          [⟨0, 3, KeywordColor⟩, ⟨8, 12, LiteralColor⟩]) :=
  ⟨⟨by decide,
      (invalid_tokens_are_skipped 0 (some samplePP) samplePP ()).1 invalidToken _ (by decide)⟩,
    ⟨fun _ => (by decide : ∀ T ∈ [intToken, invalidToken, trueToken], T.Coherent),
      (invalid_tokens_are_skipped 0 (some samplePP) samplePP ()).2.2.2 sampleBuffer
        (constLexer [intToken, invalidToken, trueToken]) 100
        (fun _ => (by decide : ∀ T ∈ [intToken, invalidToken, trueToken], T.Coherent)),
      by decide, by decide⟩⟩

/-- C15 fails as stated: in `int x = true;` the identifier `true` stands at columns 8..12
(`int` 0..3, `x` at 4, `=` at 6), so the second range is `(8, 12, Literal)` and not
`(10, 14, Literal)`. -/
theorem scenario_a_columns_counterexample :
    highlightLine 0 (some samplePP) () sampleBuffer (constLexer scenarioALine) 100 =
        [⟨0, 3, KeywordColor⟩, ⟨8, 12, LiteralColor⟩] ∧
      highlightLine 0 (some samplePP) () sampleBuffer (constLexer scenarioALine) 100 ≠
        [⟨0, 3, KeywordColor⟩, ⟨10, 14, LiteralColor⟩] ∧
      "int x = ".length = 8 := by
  decide

/-- C15 as amended: for the one-line input `int x = true;` (line 0), with `int` a keyword
of the configuration and `x` not a keyword, `highlightLine` returns exactly the two
ranges `(0, 3, Keyword)` for `int` and `(8, 12, Literal)` for `true`, in that order. -/
theorem scenario_a_spans {LO : Type} (PP : Preprocessor LO) (LangOpts : LO)
    (Buff : MemoryBuffer) (LineStart : Nat) (hx : PP.hasExternalIdentifierLookup = false)
    (hint : PP.isKeyword "int" LangOpts = true) (hxk : PP.isKeyword "x" LangOpts = false) :
    highlightLine 0 (some PP) LangOpts Buff (constLexer scenarioALine) LineStart =
      [⟨0, 3, KeywordColor⟩, ⟨8, 12, LiteralColor⟩] := by
  have hskip : ∀ (T : Token) (V : List StyleRange), T.interesting = false →
      ∀ rest, lexLoop 0 PP LangOpts (T :: rest) V = lexLoop 0 PP LangOpts rest V := by
    intro T V hT rest
    rw [lexLoop, loopBody_not_interesting 0 PP LangOpts V T hT]
  have h1 : loopBody 0 PP LangOpts [] intToken = some [⟨0, 3, KeywordColor⟩] := by
    rw [loopBody_single 0 PP LangOpts [] intToken rfl (by decide),
      appendStyle_identifier PP LangOpts [] intToken _ _ rfl (by decide)]
    have : intToken.RawIdentifier = "int" := rfl
    rw [this, if_pos hint]
    rfl
  have h2 : ∀ V, loopBody 0 PP LangOpts V xToken = some V := by
    intro V
    rw [loopBody_single 0 PP LangOpts V xToken rfl (by decide),
      appendStyle_identifier PP LangOpts V xToken _ _ rfl (by decide)]
    have : xToken.RawIdentifier = "x" := rfl
    rw [this, hxk]
    simp
  have h3 : ∀ V, loopBody 0 PP LangOpts V trueToken = some (V ++ [⟨8, 12, LiteralColor⟩]) := by
    intro V
    rw [loopBody_single 0 PP LangOpts V trueToken rfl (by decide),
      appendStyle_reserved_literal PP LangOpts V trueToken _ _ rfl (Or.inl rfl)]
    rfl
  have hh : highlightLine 0 (some PP) LangOpts Buff (constLexer scenarioALine) LineStart =
      lexLoop 0 PP LangOpts scenarioALine [] := by
    simp [highlightLine, hx, constLexer]
  rw [hh, scenarioALine, lexLoop, h1]
  simp only
  rw [hskip _ _ (by rfl), lexLoop, h2]
  simp only
  rw [hskip _ _ (by rfl), hskip _ _ (by rfl), hskip _ _ (by rfl), lexLoop, h3]
  simp only
  rw [hskip _ _ (by rfl), hskip _ _ (by rfl)]
  rfl

/-- Witness of C15 as amended: the sample keyword table knows `int` and not `x`. -/
theorem scenario_a_spans_witness :
    (samplePP.hasExternalIdentifierLookup = false ∧ samplePP.isKeyword "int" () = true ∧
        samplePP.isKeyword "x" () = false) ∧
      highlightLine 0 (some samplePP) () sampleBuffer (constLexer scenarioALine) 100 =
        [⟨0, 3, KeywordColor⟩, ⟨8, 12, LiteralColor⟩] :=
  ⟨⟨rfl, by decide, by decide⟩,
    scenario_a_spans samplePP () sampleBuffer 100 rfl (by decide) (by decide)⟩

/-- C16: the early stop loses nothing.  For a stream whose start lines are non-decreasing,
the loop of `highlightLine` (which passes over tokens ending before the target line and
leaves at the first interesting token starting after it) returns the same ranges as the
walker that examines every token and emits the fragment of each interesting, valid token
with `StartLine <= LineNumber <= EndLine`; so does `highlightLine` for the stream that the
lexer delivers from the offset of the save point. -/
theorem early_stop_loses_nothing {LO : Type} (LineNumber : Nat) (PP : Preprocessor LO)
    (LangOpts : LO) :
    (∀ ts : List Token, StartLinesAscending ts →
        lexLoop LineNumber PP LangOpts ts [] = exhaustiveWalk LineNumber PP LangOpts ts) ∧
      (∀ (Buff : MemoryBuffer) (L : Lexer) (LineStart : Nat),
        PP.hasExternalIdentifierLookup = false →
        StartLinesAscending (L.tokensFrom (seekOffset Buff (PP.getSaveFor LineStart))) →
        highlightLine LineNumber (some PP) LangOpts Buff L LineStart =
          exhaustiveWalk LineNumber PP LangOpts
            (L.tokensFrom (seekOffset Buff (PP.getSaveFor LineStart)))) := by
  refine ⟨fun ts h => lexLoop_eq_exhaustiveWalk LineNumber PP LangOpts ts h, ?_⟩
  intro Buff L LineStart hx hord
  rw [← lexLoop_eq_exhaustiveWalk LineNumber PP LangOpts _ hord]
  simp [highlightLine, hx]

/-- Witness of C16: on the sample stream the loop stops at the block comment when the
target line is line 0, and the result is that of the walker that goes through it all. -/
theorem early_stop_loses_nothing_witness :
    StartLinesAscending sampleStream ∧
      loopBody 0 samplePP () [] blockCommentToken = none ∧
      exhaustiveWalk 0 samplePP () sampleStream =
        [⟨0, 3, KeywordColor⟩, ⟨4, 6, LiteralColor⟩, ⟨7, 12, CommentColor⟩] ∧
      (samplePP.hasExternalIdentifierLookup = false ∧
        highlightLine 0 (some samplePP) () sampleBuffer (constLexer sampleStream) 100 =
          exhaustiveWalk 0 samplePP () sampleStream) :=
  ⟨by decide, by decide,
    ((early_stop_loses_nothing 0 samplePP ()).1 sampleStream (by decide)).symm.trans
      (by decide),
    rfl,
    (early_stop_loses_nothing 0 samplePP ()).2 sampleBuffer (constLexer sampleStream) 100 rfl
      (by decide : StartLinesAscending sampleStream)⟩

/-- C17: a token contributes at most one range to a call of `highlightLine`: whatever
its spelling holds, the loop body leaves the loop, goes on with the vector unchanged, or
goes on with exactly one more range; hence the number of ranges returned is at most the
number of interesting tokens (raw identifiers, literals, comments) among those walked over
that meet the target line. -/
theorem at_most_one_span_per_token {LO : Type} (LineNumber : Nat)
    (PP : Option (Preprocessor LO)) (LangOpts : LO) (Buff : MemoryBuffer) (L : Lexer)
    (LineStart : Nat) :
    (∀ (P : Preprocessor LO) (T : Token) (V : List StyleRange),
        loopBody LineNumber P LangOpts V T = none ∨
          loopBody LineNumber P LangOpts V T = some V ∨
          ∃ s, loopBody LineNumber P LangOpts V T = some (V ++ [s])) ∧
      (highlightLine LineNumber PP LangOpts Buff L LineStart).length ≤
        ((walkedTokens PP Buff L LineStart).filter
          (fun T => T.interesting && T.meets LineNumber)).length := by
  constructor
  · intro P T V
    rw [loopBody_append]
    rcases loopBody_cases LineNumber P LangOpts T with h | h | ⟨s, h, _⟩
    · left; rw [h]; rfl
    · right; left; rw [h]; simp
    · right; right; exact ⟨s, by rw [h]; rfl⟩
  · rcases highlightLine_eq_walked LineNumber PP LangOpts Buff L LineStart with h | ⟨P, h⟩
    · rw [h]; exact Nat.zero_le _
    · rw [h]; exact lexLoop_length_le LineNumber P LangOpts _

/-- C18, the code at a CR LF comment: for the comment over the lines `/*`,
`long line here`, `x`, `*/` the loop counts the carriage return and the line feed as two
line breaks.  Line 1 gets the empty run between them, `(0, 0)`, instead of `(0, 14)`;
line 2 gets the run of line 1, `(0, 14)`, instead of `(0, 1)`. -/
theorem crlf_fragment_index_evaluation :
    crlfCommentToken.MultiLineAt 1 ∧ crlfCommentToken.MultiLineAt 2 ∧
      highlightLine 1 (some samplePP) () sampleBuffer (constLexer [crlfCommentToken]) 100 =
        [⟨0, 0, CommentColor⟩] ∧
      highlightLine 2 (some samplePP) () sampleBuffer (constLexer [crlfCommentToken]) 100 =
        [⟨0, 14, CommentColor⟩] ∧
      "long line here".length = 14 ∧ "x".length = 1 := by
  decide

/-- C19: a styled multi-line token (`StartLine < EndLine`, its four queries valid) that
meets the target line gets a range exactly when its spelling holds at least
`LineNumber - StartLine` line-break characters; with fewer (for instance a spelling from
which line continuations were removed) the loop goes on with the vector unchanged, so
the later lines of the token get nothing; on its first line the range runs from the
start column over the spelling up to its first line break, that is over the whole
spelling when it has none. -/
theorem multi_line_span_iff_enough_line_breaks {LO : Type} (LineNumber : Nat)
    (PP : Preprocessor LO) (LangOpts : LO) (T : Token) (c : Colors)
    (hi : T.interesting = true) (hs : tokenStyle PP LangOpts T = some c)
    (hm : T.MultiLineAt LineNumber) (V : List StyleRange) :
    (LineNumber - T.StartLine ≤ lineBreaks T.Spelling.data →
        ∃ Start End, loopBody LineNumber PP LangOpts V T = some (V ++ [⟨Start, End, c⟩])) ∧
      (lineBreaks T.Spelling.data < LineNumber - T.StartLine →
        loopBody LineNumber PP LangOpts V T = some V) ∧
      (LineNumber = T.StartLine → T.StartCol + T.Spelling.length < 2 ^ 32 →
        loopBody LineNumber PP LangOpts V T =
            some (V ++ [⟨T.StartCol, T.StartCol +
              (T.Spelling.data.takeWhile (fun ch => !isVerticalWhitespace ch)).length, c⟩]) ∧
          (lineBreaks T.Spelling.data = 0 →
            loopBody LineNumber PP LangOpts V T =
              some (V ++ [⟨T.StartCol, T.StartCol + T.Spelling.length, c⟩]))) := by
  have hb := loopBody_multi_fragments LineNumber PP LangOpts T hi hm V
  refine ⟨fun hle => ?_, fun hlt => ?_, fun hfirst hw => ?_⟩
  · rw [if_pos (by omega), emitFragment_of_style PP LangOpts T c hs] at hb
    exact ⟨_, _, hb⟩
  · rw [if_neg (by omega)] at hb
    exact hb
  · have h0 : LineNumber - T.StartLine = 0 := by omega
    rw [if_pos (by omega), emitFragment_of_style PP LangOpts T c hs, h0,
      getD_zero_lineFragments] at hb
    simp only [if_true] at hb
    have hlen : (T.Spelling.data.takeWhile (fun ch => !isVerticalWhitespace ch)).length ≤
        T.Spelling.length := (List.takeWhile_sublist _).length_le
    rw [u32_of_lt (by omega)] at hb
    refine ⟨hb, fun hnone => ?_⟩
    rw [hb, takeWhile_of_no_lineBreaks T.Spelling.data hnone]
    rfl

/-- Witness of C19: a string literal continued over two lines whose spelling holds no
line break gets the range of its whole spelling on its first line and nothing on its
second line; a block comment with two line breaks gets a range on its third line. -/
theorem multi_line_span_iff_enough_line_breaks_witness :
    (continuedStringToken.interesting = true ∧
        tokenStyle samplePP () continuedStringToken = some LiteralColor ∧
        continuedStringToken.MultiLineAt 0 ∧ continuedStringToken.MultiLineAt 1 ∧
        lineBreaks continuedStringToken.Spelling.data < 1 - continuedStringToken.StartLine ∧
        continuedStringToken.StartCol + continuedStringToken.Spelling.length < 2 ^ 32) ∧
      loopBody 1 samplePP () [] continuedStringToken = some [] ∧
      loopBody 0 samplePP () [] continuedStringToken = some [⟨0, 8, LiteralColor⟩] ∧
      (blockCommentToken.MultiLineAt 3 ∧
        3 - blockCommentToken.StartLine ≤ lineBreaks blockCommentToken.Spelling.data) ∧
      (∃ Start End,
        loopBody 3 samplePP () [] blockCommentToken = some ([] ++ [⟨Start, End, CommentColor⟩])) :=
  ⟨⟨rfl, by decide, by decide, by decide, by decide, by decide⟩,
    (multi_line_span_iff_enough_line_breaks 1 samplePP () continuedStringToken LiteralColor rfl
      (by decide) (by decide) []).2.1 (by decide),
    (((multi_line_span_iff_enough_line_breaks 0 samplePP () continuedStringToken LiteralColor
      rfl (by decide) (by decide) []).2.2 (by decide) (by decide)).2 (by decide)).trans
      (by decide),
    ⟨by decide, by decide⟩,
    (multi_line_span_iff_enough_line_breaks 3 samplePP () blockCommentToken CommentColor rfl
      (by decide) (by decide) []).1 (by decide)⟩

end clang
